import Mathlib

/-!
# smallsh: a shallow embedding of `smallsh.c`

C strings are lists of characters (the bytes before the terminating NUL).  The
block `input` points to has a size in bytes, and a write of the expansion loop
past its end is an outcome of that loop (`expandLoop`); `processInput` is the
parse of the text the loop leaves when its writes stay inside the block.  The
other character buffers are unbounded.  Text written by `printf`/`write` is
recorded as a list of output events, one event per call.
-/

namespace SmallSh

/-! ## Strings -/

/-- The two-character needle of `strstr(input, "$$")`. -/
def dollars : List Char := ['$', '$']

/-- The call `strstr(haystack, needle)`: the offset of the first occurrence of
`needle` in `haystack`, or `none` for a NULL result. -/
def strstr : List Char → List Char → Option Nat
  | [], needle => if needle = [] then some 0 else none
  | c :: cs, needle =>
    if needle.isPrefixOf (c :: cs) then some 0
    else (strstr cs needle).map (· + 1)

/-- The text `sprintf(currPid, "%d", currPidNum)` leaves in `currPid`. -/
def sprintf_d (n : Int) : List Char :=
  if n < 0 then '-' :: Nat.toDigits 10 n.natAbs else Nat.toDigits 10 n.natAbs

/-- The statement `input[strcspn(input, "\n")] = 0`: the line is cut at its
first newline. -/
def stripNewline (input : List Char) : List Char :=
  input.takeWhile (· ≠ '\n')

/-- CMDLENGTH: "Maximum character length of command". -/
def CMDLENGTH : Nat := 2048

/-- The size in bytes of the block `main` gets from `malloc` for `input`
(lines 199-200): `inputSize + 1` with `inputSize = CMDLENGTH`.  The call of
`getline` is told of `inputSize` bytes and leaves the line in this block when
the line, its newline included, and a NUL fit in them. -/
def inputBlock : Nat := CMDLENGTH + 1

/-- How the loop of lines 53-60 ends. -/
inductive Expansion where
  /-- The call `strstr(input, "$$")` returns NULL: the loop ends with this text
  in the block. -/
  | text (input : List Char)
  /-- The call `strcpy(var, currPid)` or `strcat(prefix, suffix)` writes past
  the end of the block. -/
  | overflow
  deriving DecidableEq, Repr

/-- The loop of lines 53-60 in a block of `size` bytes.  `var` is the offset
found by `strstr`; the body copies the text after the two dollars (`suffix`),
writes `currPid` and its NUL at `var`, which takes the bytes up to offset
`var + currPid.length`, and appends the copy and its NUL, which takes the bytes
up to offset `var + currPid.length + suffix.length`.  `fuel` bounds the number
of evaluations of the loop condition; `none` means the bound was reached before
the loop ended. -/
def expandLoop (size : Nat) (currPid : List Char) : Nat → List Char → Option Expansion
  | 0, _ => none
  | fuel + 1, input =>
    match strstr input dollars with
    | none => some (.text input)
    | some var =>
      if size < var + currPid.length + 1 then some .overflow
      else if size < var + currPid.length + (input.drop (var + 2)).length + 1 then some .overflow
      else expandLoop size currPid fuel (input.take var ++ (currPid ++ input.drop (var + 2)))

/-- The texts of the loop of lines 53-60, the size of the block left aside:
the loop of `expandLoop` with every write taken to stay inside the block. -/
def expandUnchecked (currPid : List Char) : Nat → List Char → Option (List Char)
  | 0, _ => none
  | fuel + 1, input =>
    match strstr input dollars with
    | none => some input
    | some var =>
      expandUnchecked currPid fuel (input.take var ++ (currPid ++ input.drop (var + 2)))

/-- Replacement of every `$$`, in one pass from the left, as the specification
words it: text outside the occurrences is kept and nothing is inserted around
the replacement. -/
def replaceDollars (pid : List Char) : List Char → List Char
  | [] => []
  | [c] => [c]
  | c :: d :: rest =>
    if c = '$' ∧ d = '$' then pid ++ replaceDollars pid rest
    else c :: replaceDollars pid (d :: rest)

/-! ## The command structure and the parser -/

/-- ARGCOUNT: "Maximum supported number of arguments". -/
def ARGCOUNT : Nat := 512

/-- A token returned by `strtok`: a non-empty run of characters other than the
delimiter. -/
abbrev Token := List Char

/-- The results of the successive calls `strtok(input, " ")`,
`strtok(NULL, " ")`, ... up to the first NULL: the maximal runs of characters
other than the space, in order.  `cur` is the run being read. -/
def tokenizeAux : List Char → Token → List Token
  | [], cur => if cur = [] then [] else [cur]
  | c :: cs, cur =>
    if c = ' ' then
      if cur = [] then tokenizeAux cs [] else cur :: tokenizeAux cs []
    else tokenizeAux cs (cur ++ [c])

/-- The token sequence of a line. -/
def tokenize (input : List Char) : List Token := tokenizeAux input []

/-- The structure `struct cmd`.  `args` holds the ARGCOUNT pointers of the
array, `none` being NULL; `background` is true for a non-zero int. -/
structure Cmd where
  args : List (Option Token)
  background : Bool
  inputFile : List Char
  outputFile : List Char
  deriving DecidableEq, Repr

/-- A block of `sizeof(struct cmd)` zero bytes: every pointer NULL, the flag 0
and both paths the empty string. -/
def Cmd.zeroed : Cmd :=
  { args := List.replicate ARGCOUNT none, background := false, inputFile := [], outputFile := [] }

/-- The loop of lines 63-98.  The first argument is the list of tokens `strtok`
has still to return, its head being the current value of `arg` (the empty list
is `arg == NULL`); `i` is the index of the next store and `cmd` the structure
as written so far. -/
def parseLoop (SIGTSTP_count : Nat) : List Token → Nat → Cmd → Cmd
  | [], _, cmd => cmd
  | arg :: rest, i, cmd =>
    if i < ARGCOUNT then
      if arg = ['<'] then
        match rest with
        | [] => cmd
        | file :: rest2 => parseLoop SIGTSTP_count rest2 i { cmd with inputFile := file }
      else if arg = ['>'] then
        match rest with
        | [] => cmd
        | file :: rest2 => parseLoop SIGTSTP_count rest2 i { cmd with outputFile := file }
      else if arg = ['&'] then
        match rest with
        | [] => if SIGTSTP_count % 2 = 0 then { cmd with background := true } else cmd
        | next :: rest2 => parseLoop SIGTSTP_count (next :: rest2) i cmd
      else if arg = ['|'] ∨ arg = ['!'] then
        parseLoop SIGTSTP_count rest i cmd
      else
        parseLoop SIGTSTP_count rest (i + 1) { cmd with args := cmd.args.set i (some arg) }
    else cmd

/-- Lines 50-60 when `getline` has stored `line` in a block of `size` bytes:
the newline is stripped and the expansion loop runs, given one evaluation of
its condition per character of the line, plus one. -/
def expandInput (size : Nat) (currPidNum : Int) (line : List Char) : Option Expansion :=
  expandLoop size (sprintf_d currPidNum) ((stripNewline line).length + 1) (stripNewline line)

/-- The function `processInput` after `getline` has stored `line`, the writes
of the expansion loop taken to stay inside the block (`expandInput` tells when
they do, and the text parsed here is then the text in the block):
`currPidNum` is the result of `getpid()`, `SIGTSTP_count` the value of the
global counter and `cmd` the contents of the structure the caller passes in.
`none` means the expansion loop has not ended within one evaluation of its
condition per character of the line, plus one. -/
def processInput (currPidNum : Int) (SIGTSTP_count : Nat) (line : List Char) (cmd : Cmd) :
    Option Cmd :=
  (expandUnchecked (sprintf_d currPidNum) ((stripNewline line).length + 1)
    (stripNewline line)).map fun input => parseLoop SIGTSTP_count (tokenize input) 0 cmd

/-! ### The parser in the words of the specification -/

/-- A redirection operator token, `<` or `>`. -/
def isRedirect (t : Token) : Bool := t = ['<'] || t = ['>']

/-- One of the operator tokens that take no value: `&`, `|`, `!`. -/
def isDropped (t : Token) : Bool := t = ['&'] || t = ['|'] || t = ['!']

/-- The argument tokens of a token sequence: those that are neither an operator
token nor the token following a redirection operator. -/
def argTokens : List Token → List Token
  | [] => []
  | [t] => if isRedirect t || isDropped t then [] else [t]
  | t :: v :: ts =>
    if isRedirect t then argTokens ts
    else if isDropped t then argTokens (v :: ts)
    else t :: argTokens (v :: ts)

/-- Whether a token sequence ends with a redirection operator that still
awaits its value, so that a token appended to it would be taken as a path. -/
def valueExpected : List Token → Bool
  | [] => false
  | [t] => isRedirect t
  | t :: v :: ts => if isRedirect t then valueExpected ts else valueExpected (v :: ts)

/-- The values given to the redirection operator `op`, in scan order: each is
the token that follows an occurrence of `op` standing in operator position. -/
def redirValues (op : Token) : List Token → List Token
  | [] => []
  | [_] => []
  | t :: v :: ts =>
    if isRedirect t then (if t = op then v :: redirValues op ts else redirValues op ts)
    else redirValues op (v :: ts)

/-- Whether the last token of the sequence is a `&` that the scan reads as an
operator: it is not the value of a redirection and fewer than ARGCOUNT
arguments precede it. -/
def trailingAmpersand (toks : List Token) : Bool :=
  toks.getLast? = some ['&'] && !valueExpected toks.dropLast
    && decide ((argTokens toks.dropLast).length < ARGCOUNT)

/-! ## Output -/

/-- One call of `printf` or `write`. -/
inductive Out where
  /-- The call `printf("exit value %d\n", n)`. -/
  | exitValue (n : Nat)
  /-- The call `printf("terminated by signal %d\n", n)`. -/
  | terminatedBySignal (n : Nat)
  /-- The call `printf("background pid %d is done: ", pid)`. -/
  | backgroundDone (pid : Int)
  /-- The call `printf("terminated by %d\n", n)`. -/
  | terminatedBy (n : Nat)
  /-- The entering notice; `prompt` is true for the handler, whose `write`
  ends with the prompt character. -/
  | entering (prompt : Bool)
  /-- The exiting notice; `prompt` as for `entering`. -/
  | exiting (prompt : Bool)
  deriving DecidableEq, Repr

/-- The characters an output event puts on standard output. -/
def Out.text : Out → List Char
  | .exitValue n => "exit value ".toList ++ sprintf_d n ++ ['\n']
  | .terminatedBySignal n => "terminated by signal ".toList ++ sprintf_d n ++ ['\n']
  | .backgroundDone pid => "background pid ".toList ++ sprintf_d pid ++ " is done: ".toList
  | .terminatedBy n => "terminated by ".toList ++ sprintf_d n ++ ['\n']
  | .entering prompt =>
    "Entering foreground-only mode (& is now ignored)\n".toList ++ (if prompt then [':'] else [])
  | .exiting prompt =>
    "Exiting foreground-only mode\n".toList ++ (if prompt then [':'] else [])

/-! ## Wait statuses -/

/-- The macro `WTERMSIG(status)` of `<sys/wait.h>`: `status & 0x7f`. -/
def WTERMSIG (status : Nat) : Nat := status % 128

/-- The macro `WIFEXITED(status)`: the C truth value of `WTERMSIG(status) == 0`. -/
def WIFEXITED (status : Nat) : Nat := if WTERMSIG status = 0 then 1 else 0

/-- The macro `WEXITSTATUS(status)`: `(status & 0xff00) >> 8`. -/
def WEXITSTATUS (status : Nat) : Nat := (status / 256) % 256

/-- The macro `WIFSIGNALED(status)`: the C truth value of
`((signed char) ((status & 0x7f) + 1) >> 1) > 0`. -/
def WIFSIGNALED (status : Nat) : Nat :=
  let v : Int := (status % 128 : Nat) + 1
  let sc : Int := if 128 ≤ v then v - 256 else v
  if 0 < sc / 2 then 1 else 0

/-- The wait status of a process that called `exit(code)`. -/
def exitedStatus (code : Nat) : Nat := (code % 256) * 256

/-- The wait status of a process killed by signal `sig`, with or without a
core dump. -/
def signaledStatus (sig : Nat) (core : Bool) : Nat := sig % 128 + (if core then 128 else 0)

/-- The function `displayStatus` (lines 111-123). -/
def displayStatus (exitMethod : Nat) : List Out :=
  if WIFEXITED exitMethod ≠ 0 then [Out.exitValue (WIFEXITED exitMethod)]
  else if WIFSIGNALED exitMethod ≠ 0 then [Out.terminatedBySignal exitMethod]
  else []

/-- The `status` built-in (lines 214-222). -/
def statusBuiltin (fgExited : Bool) (fgExitMethod : Nat) : List Out :=
  if fgExited then displayStatus fgExitMethod else [Out.exitValue 0]

/-! ## The mode controller -/

/-- The three globals of lines 26-28; the two flags only ever hold 0 or 1. -/
structure SigState where
  SIGTSTP_count : Nat
  fgRunning : Bool
  SIGTSTP_sent : Bool
  deriving DecidableEq, Repr

/-- The globals as initialised. -/
def SigState.init : SigState := { SIGTSTP_count := 0, fgRunning := false, SIGTSTP_sent := false }

/-- The function `handleSIGTSTP` (lines 132-150): the state it leaves and what
it writes. -/
def handleSIGTSTP (st : SigState) : SigState × List Out :=
  let st1 := { st with SIGTSTP_count := st.SIGTSTP_count + 1 }
  if st1.fgRunning then ({ st1 with SIGTSTP_sent := true }, [])
  else if st1.SIGTSTP_count % 2 = 1 then (st1, [Out.entering true])
  else (st1, [Out.exiting true])

/-- The handler run `n` times in a row, with everything written. -/
def deliver : Nat → SigState → SigState × List Out
  | 0, st => (st, [])
  | n + 1, st =>
    let r := handleSIGTSTP st
    let r2 := deliver n r.1
    (r2.1, r.2 ++ r2.2)

/-- The number of the signal SIGINT. -/
def SIGINT : Nat := 2

/-- Lines 306-320: the check of `SIGTSTP_sent` that follows the wait. -/
def deferredNotice (st : SigState) : SigState × List Out :=
  if st.SIGTSTP_sent then
    ({ st with SIGTSTP_sent := false },
      [if st.SIGTSTP_count % 2 = 1 then Out.entering false else Out.exiting false])
  else (st, [])

/-- Lines 298-320 for one foreground command: `signals` deliveries of SIGTSTP
arrive between the two assignments to `fgRunning`, and `waitpid` stores
`fgExitMethod`. -/
def foregroundWait (signals : Nat) (fgExitMethod : Nat) (st : SigState) : SigState × List Out :=
  let d := deliver signals { st with fgRunning := true }
  let st3 := { d.1 with fgRunning := false }
  let o3 := if WTERMSIG fgExitMethod = SIGINT then [Out.terminatedBy (WTERMSIG fgExitMethod)] else []
  let r := deferredNotice st3
  (r.1, d.2 ++ o3 ++ r.2)

/-! ## The job table -/

/-- The loop of lines 330-335 from index `i` on, with `n` iterations left. -/
def registerLoop (pid : Int) : Nat → Nat → List Int → List Int
  | 0, _, bgProcesses => bgProcesses
  | n + 1, i, bgProcesses =>
    if bgProcesses.getD i 0 = 0 then bgProcesses.set i pid
    else registerLoop pid n (i + 1) bgProcesses

/-- Lines 330-335: the pid of a background child is stored in the array
`bgProcesses` of 256 ints. -/
def registerJob (pid : Int) (bgProcesses : List Int) : List Int :=
  registerLoop pid 256 0 bgProcesses

/-- The loop of lines 185-196 from index `i` on, with `n` iterations left.
`waitpid i` is what the call `waitpid(bgProcesses[i], &bgExitMethod, WNOHANG)`
gives when slot `i` is polled: its return value and the status it stores. -/
def reapLoop (waitpid : Nat → Int × Nat) : Nat → Nat → List Int → List Int × List Out
  | 0, _, bgProcesses => (bgProcesses, [])
  | n + 1, i, bgProcesses =>
    if 0 < bgProcesses.getD i 0 ∧ 0 < (waitpid i).1 then
      let r := reapLoop waitpid n (i + 1) (bgProcesses.set i 0)
      (r.1, Out.backgroundDone (bgProcesses.getD i 0) :: displayStatus (waitpid i).2 ++ r.2)
    else reapLoop waitpid n (i + 1) bgProcesses

/-- Lines 185-196: one pass over the 256 slots. -/
def reapCompleted (waitpid : Nat → Int × Nat) (bgProcesses : List Int) : List Int × List Out :=
  reapLoop waitpid 256 0 bgProcesses

/-- The array `bgProcesses` as initialised: 256 zeros. -/
def emptyJobs : List Int := List.replicate 256 0

/-! ## Definitions used to state the properties -/

/-- The line after newline stripping with every `$$` replaced. -/
def expandedLine (currPidNum : Int) (line : List Char) : List Char :=
  replaceDollars (sprintf_d currPidNum) (stripNewline line)

/-- The tokens of the expanded line. -/
def lineTokens (currPidNum : Int) (line : List Char) : List Token :=
  tokenize (expandedLine currPidNum line)

/-- No `$$` and no `$` at the end: text the scan for `$$` passes over whatever
follows it. -/
def Settled : List Char → Prop
  | [] => True
  | [c] => c ≠ '$'
  | c :: d :: rest => ¬ (c = '$' ∧ d = '$') ∧ Settled (d :: rest)

/-- The trailing `&` is read as an operator when the scan starts at index `i`. -/
def AmpAt (i : Nat) (toks : List Token) : Prop :=
  toks.getLast? = some ['&'] ∧ valueExpected toks.dropLast = false
    ∧ i + (argTokens toks.dropLast).length < ARGCOUNT

instance (i : Nat) (toks : List Token) : Decidable (AmpAt i toks) := by
  unfold AmpAt
  infer_instance

/-- The pointers a scan from index `i` leaves in the array: the first
`ARGCOUNT - i` argument tokens, from index `i` on. -/
def storedArgs (i : Nat) (toks : List Token) (args : List (Option Token)) : List (Option Token) :=
  args.take i ++ ((argTokens toks).take (ARGCOUNT - i)).map some
    ++ args.drop (i + min (argTokens toks).length (ARGCOUNT - i))

/-- The completion report of slot `j`, empty when the slot is not reaped. -/
def report (w : Nat → Int × Nat) (tbl : List Int) (j : Nat) : List Out :=
  if 0 < tbl.getD j 0 ∧ 0 < (w j).1 then
    Out.backgroundDone (tbl.getD j 0) :: displayStatus (w j).2
  else []

/-- The pid a `background pid ... is done` message names. -/
def Out.donePid : Out → Option Int
  | .backgroundDone pid => some pid
  | _ => none

/-- The notice for the mode the counter value `count` stands for: entering
when it is odd, exiting when it is even. -/
def modeNotice (count : Nat) (prompt : Bool) : Out :=
  if count % 2 = 1 then Out.entering prompt else Out.exiting prompt

/-- Whether foreground-only mode is active: the counter is odd. -/
def foregroundOnly (st : SigState) : Bool := st.SIGTSTP_count % 2 = 1

/-- The line of 700 `$$` and a newline. -/
def overflowLine : List Char := List.replicate (2 * 700) '$' ++ ['\n']

/-- A line of ARGCOUNT one-letter words, each followed by a space. -/
def capLine : List Char := (List.replicate ARGCOUNT ['a', ' ']).flatten

/-! ## The main loop -/

/-- The variables of `main` that live across iterations, with the three
globals and the working directory of the process. -/
structure Shell where
  sig : SigState
  fgExited : Bool
  fgExitMethod : Nat
  bgProcesses : List Int
  cwd : List Char
  deriving DecidableEq, Repr

/-- The state in which `main` enters its loop: `fgExitMethod` is not
initialised and holds whatever was there. -/
def Shell.init (fgExitMethod : Nat) (cwd : List Char) : Shell :=
  { sig := SigState.init, fgExited := false, fgExitMethod := fgExitMethod,
    bgProcesses := emptyJobs, cwd := cwd }

/-- What the operating system answers to the calls of one dispatch: the value
of `getenv("HOME")`, the working directory after `chdir(path)` (`none` when
the call fails), the return value of `fork()`, the number of SIGTSTP
delivered while `waitpid(pid, &fgExitMethod, 0)` blocks and the status that
call stores. -/
structure Os where
  home : Option (List Char)
  chdir : List Char → Option (List Char)
  fork : Int
  signals : Nat
  waitStatus : Nat

/-- What one dispatch does that is visible outside the process. -/
inductive Event where
  /-- A call of `printf` or `write` modelled by `Out`. -/
  | print (o : Out)
  /-- The call `printf("background pid is %d\n", pid)`. -/
  | backgroundPid (pid : Int)
  /-- The call `fork()`. -/
  | fork
  /-- The call `killpg(currGpid, SIGKILL)`. -/
  | killpg
  /-- The call `perror(msg)`. -/
  | perror (msg : List Char)
  deriving DecidableEq, Repr

/-- How the body of the loop ends in the process that runs it. -/
inductive Outcome where
  /-- The loop goes on to its next iteration. -/
  | continues (sh : Shell)
  /-- The process ends: `return 0` or `exit(status)`. -/
  | ends (status : Int)
  /-- The process is the child `fork()` created (`case 0`). -/
  | child
  /-- The expansion loop of `processInput` has not ended. -/
  | hangs
  deriving DecidableEq, Repr

/-- Lines 205-339, the dispatch of a parsed command in the process that called
`fork()`.  A NULL result of `getenv("HOME")` makes `chdir` fail. -/
def dispatch (os : Os) (cmd : Cmd) (sh : Shell) : Outcome × List Event :=
  match cmd.args.getD 0 none with
  | none => (.continues sh, [])
  | some arg0 =>
    if arg0.head? = some '#' then (.continues sh, [])
    else if arg0 = "exit".toList then (.ends 0, [.killpg])
    else if arg0 = "status".toList then
      (.continues sh, (statusBuiltin sh.fgExited sh.fgExitMethod).map .print)
    else if arg0 = "cd".toList then
      match cmd.args.getD 1 none with
      | none => (.continues { sh with cwd := (os.home.bind os.chdir).getD sh.cwd }, [])
      | some path => (.continues { sh with cwd := (os.chdir path).getD sh.cwd }, [])
    else if os.fork = 0 then (.child, [.fork])
    else if os.fork = -1 then (.ends (-1), [.fork, .perror "pid not found\n".toList])
    else if cmd.background = false then
      let r := foregroundWait os.signals os.waitStatus sh.sig
      (.continues { sh with sig := r.1, fgExitMethod := os.waitStatus, fgExited := true },
        .fork :: r.2.map .print)
    else
      (.continues { sh with bgProcesses := registerJob os.fork sh.bgProcesses },
        [.fork, .backgroundPid os.fork])

/-- What one iteration of the loop of `main` receives: the line `getline`
stores, the contents of the block `malloc` returns for the structure, the
outcome of the `waitpid` call of each slot in the pass over `bgProcesses`,
the number of SIGTSTP delivered while the shell waits at its prompt, and the
answers to the calls of the dispatch. -/
structure Input where
  line : List Char
  cmd : Cmd
  waitpid : Nat → Int × Nat
  promptSignals : Nat
  os : Os

/-- One iteration of the loop of lines 183-342: the pass over `bgProcesses`,
`processInput`, the dispatch. -/
def iteration (currPidNum : Int) (inp : Input) (sh : Shell) : Outcome × List Event :=
  let reaped := reapCompleted inp.waitpid sh.bgProcesses
  let d := deliver inp.promptSignals sh.sig
  let sh1 := { sh with bgProcesses := reaped.1, sig := d.1 }
  match processInput currPidNum d.1.SIGTSTP_count inp.line inp.cmd with
  | none => (.hangs, (reaped.2 ++ d.2).map .print)
  | some cmd =>
    let r := dispatch inp.os cmd sh1
    (r.1, (reaped.2 ++ d.2).map .print ++ r.2)

/-- The loop of `main` over a finite sequence of inputs: it stops at the first
iteration that does not go on. -/
def run (currPidNum : Int) : List Input → Shell → Outcome × List Event
  | [], sh => (.continues sh, [])
  | inp :: rest, sh =>
    match iteration currPidNum inp sh with
    | (.continues sh1, ev) =>
      let r := run currPidNum rest sh1
      (r.1, ev ++ r.2)
    | r => r

/-! ## The child -/

/-- The flags of the two kinds of `open` call the child makes: `O_RDONLY`, and
`O_WRONLY | O_CREAT | O_TRUNC` with mode 0644. -/
inductive OpenFlags where
  | rdonly
  | wronlyCreatTrunc
  deriving DecidableEq, Repr

/-- What a standard stream of the child refers to when it calls `execvp`:
what the shell had there, or the file an `open` call opened and `dup2` put
in its place. -/
inductive Stream where
  | inherited
  | file (path : List Char) (flags : OpenFlags)
  deriving DecidableEq, Repr

/-- The path of the null device. -/
def devNull : List Char := "/dev/null".toList

/-- What the operating system answers to the calls of the child: the
descriptor `open` returns for a path and flags, the result of `dup2`, and
whether `execvp` replaces the program image. -/
structure ChildOs where
  openFd : List Char → OpenFlags → Int
  dup2 : Int → Int → Int
  execOk : Bool

/-- How the child ends: it calls `exit(status)` after printing a message, or
runs the program with the streams and the disposition of SIGINT set up. -/
inductive ChildEnd where
  | exits (status : Nat) (message : List Char)
  | execs (stdin stdout : Stream) (sigintDefault : Bool)
  deriving DecidableEq, Repr

/-- Lines 242-255: the standard input of the child, or the status and message
of the exit taken when `open` or `dup2` fails. -/
def childStdin (os : ChildOs) (cmd : Cmd) : Except (Nat × List Char) Stream :=
  if cmd.inputFile ≠ [] then
    if os.openFd cmd.inputFile .rdonly = -1 then .error (1, "source open()".toList)
    else if os.dup2 (os.openFd cmd.inputFile .rdonly) 0 = -1 then
      .error (2, "source dup2()".toList)
    else .ok (.file cmd.inputFile .rdonly)
  else if cmd.background then
    if os.openFd devNull .rdonly = -1 then .error (1, "source open()".toList)
    else if os.dup2 (os.openFd devNull .rdonly) 0 = -1 then .error (2, "source dup2()".toList)
    else .ok (.file devNull .rdonly)
  else .ok .inherited

/-- Lines 258-271: the standard output of the child, likewise. -/
def childStdout (os : ChildOs) (cmd : Cmd) : Except (Nat × List Char) Stream :=
  if cmd.outputFile ≠ [] then
    if os.openFd cmd.outputFile .wronlyCreatTrunc = -1 then .error (1, "target open()".toList)
    else if os.dup2 (os.openFd cmd.outputFile .wronlyCreatTrunc) 1 = -1 then
      .error (2, "target dup2()".toList)
    else .ok (.file cmd.outputFile .wronlyCreatTrunc)
  else if cmd.background then
    if os.openFd devNull .wronlyCreatTrunc = -1 then .error (1, "target open()".toList)
    else if os.dup2 (os.openFd devNull .wronlyCreatTrunc) 1 = -1 then
      .error (2, "target dup2()".toList)
    else .ok (.file devNull .wronlyCreatTrunc)
  else .ok .inherited

/-- Lines 239-287, the `case 0` of the switch: redirection of the input, then
of the output, the signal dispositions, `execvp`. -/
def child (os : ChildOs) (cmd : Cmd) : ChildEnd :=
  match childStdin os cmd with
  | .error e => .exits e.1 e.2
  | .ok stdin =>
    match childStdout os cmd with
    | .error e => .exits e.1 e.2
    | .ok stdout =>
      if os.execOk then .execs stdin stdout (!cmd.background)
      else .exits 1 ("bash: ".toList ++ ((cmd.args.getD 0 none).getD []) ++
        ": command not found\n".toList)

/-! ## Signal deliveries between the steps of the loop -/

/-- The places of the loop of `main` between which the globals are read or
written: the top of an iteration (and all of it up to line 298), inside the
foreground wait (after line 298), after line 300, after the test of line 306
has found the flag set, and after line 310. -/
inductive Pc where
  | top
  | waiting
  | waited
  | clearing
  | printing
  deriving DecidableEq, Repr

/-- What happens next: a SIGTSTP is delivered and its handler runs, or `main`
takes its next step; at the top, `foreground` says whether the iteration
reaches line 298. -/
inductive Action where
  | signal
  | advance (foreground : Bool)
  deriving DecidableEq, Repr

/-- One action from a place of the loop: the handler changes the globals and
leaves `main` where it is; a step of `main` does the assignment or the test of
that place. -/
def step (a : Action) (s : Pc × SigState) : Pc × SigState :=
  match a, s with
  | .signal, (pc, st) => (pc, (handleSIGTSTP st).1)
  | .advance fg, (.top, st) => if fg then (.waiting, { st with fgRunning := true }) else (.top, st)
  | .advance _, (.waiting, st) => (.waited, { st with fgRunning := false })
  | .advance _, (.waited, st) => if st.SIGTSTP_sent then (.clearing, st) else (.top, st)
  | .advance _, (.clearing, st) => (.printing, { st with SIGTSTP_sent := false })
  | .advance _, (.printing, st) => (.top, st)

/-- The place and the globals after a sequence of actions. -/
def steps : List Action → Pc × SigState → Pc × SigState
  | [], s => s
  | a :: rest, s => steps rest (step a s)

/-! ## The loops with their counters -/

/-- The loop of lines 53-60 as `expandLoop`, returning with the way it ends
the number of times its body was entered. -/
def expandIterations (size : Nat) (currPid : List Char) : Nat → List Char → Option (Nat × Expansion)
  | 0, _ => none
  | fuel + 1, input =>
    match strstr input dollars with
    | none => some (0, .text input)
    | some var =>
      if size < var + currPid.length + 1 then some (1, .overflow)
      else if size < var + currPid.length + (input.drop (var + 2)).length + 1 then
        some (1, .overflow)
      else
        (expandIterations size currPid fuel
          (input.take var ++ (currPid ++ input.drop (var + 2)))).map fun r => (r.1 + 1, r.2)

/-- The loop of lines 63-98 as `parseLoop`, returning with the structure the
indices of the stores `cmd->args[i] = arg`, in the order they are made, and the
number of times the body of the loop ran. -/
def parseTrace (SIGTSTP_count : Nat) : List Token → Nat → Cmd → Cmd × List Nat × Nat
  | [], _, cmd => (cmd, [], 0)
  | arg :: rest, i, cmd =>
    if i < ARGCOUNT then
      if arg = ['<'] then
        match rest with
        | [] => (cmd, [], 1)
        | file :: rest2 =>
          let r := parseTrace SIGTSTP_count rest2 i { cmd with inputFile := file }
          (r.1, r.2.1, r.2.2 + 1)
      else if arg = ['>'] then
        match rest with
        | [] => (cmd, [], 1)
        | file :: rest2 =>
          let r := parseTrace SIGTSTP_count rest2 i { cmd with outputFile := file }
          (r.1, r.2.1, r.2.2 + 1)
      else if arg = ['&'] then
        match rest with
        | [] => (if SIGTSTP_count % 2 = 0 then { cmd with background := true } else cmd, [], 1)
        | next :: rest2 =>
          let r := parseTrace SIGTSTP_count (next :: rest2) i cmd
          (r.1, r.2.1, r.2.2 + 1)
      else if arg = ['|'] ∨ arg = ['!'] then
        let r := parseTrace SIGTSTP_count rest i cmd
        (r.1, r.2.1, r.2.2 + 1)
      else
        let r := parseTrace SIGTSTP_count rest (i + 1) { cmd with args := cmd.args.set i (some arg) }
        (r.1, i :: r.2.1, r.2.2 + 1)
    else (cmd, [], 0)

/-- Tokens in the sense of the specification's "splits on whitespace": the
maximal runs of characters other than the space and the tab. -/
def whitespaceTokensAux : List Char → Token → List Token
  | [], cur => if cur = [] then [] else [cur]
  | c :: cs, cur =>
    if c = ' ' ∨ c = '\t' then
      if cur = [] then whitespaceTokensAux cs [] else cur :: whitespaceTokensAux cs []
    else whitespaceTokensAux cs (cur ++ [c])

/-- The whitespace-separated tokens of a line. -/
def whitespaceTokens (input : List Char) : List Token := whitespaceTokensAux input []

/-! ## Definitions used to state the properties of the main loop -/

/-- Whether the dispatch of `cmd` takes its last branch, that of the commands
that are not built in. -/
def isExternal (cmd : Cmd) : Bool :=
  match cmd.args.getD 0 none with
  | none => false
  | some arg0 =>
    !decide (arg0.head? = some '#') && !decide (arg0 = "exit".toList)
      && !decide (arg0 = "status".toList) && !decide (arg0 = "cd".toList)

/-- Whether the dispatch of `cmd` waits for a foreground child: the command is
not built in, `fork()` returned in the parent without error, and the
background flag is clear. -/
def runsForeground (os : Os) (cmd : Cmd) : Bool :=
  isExternal cmd && !decide (os.fork = 0) && !decide (os.fork = -1) && !cmd.background

/-- Whether an iteration of the loop waits for a foreground child. -/
def foregroundRan (currPidNum : Int) (inp : Input) (sh : Shell) : Bool :=
  match processInput currPidNum (deliver inp.promptSignals sh.sig).1.SIGTSTP_count
      inp.line inp.cmd with
  | none => false
  | some cmd => runsForeground inp.os cmd

/-- The number of iterations of a run that wait for a foreground child. -/
def foregroundCount (currPidNum : Int) : List Input → Shell → Nat
  | [], _ => 0
  | inp :: rest, sh =>
    (if foregroundRan currPidNum inp sh then 1 else 0) +
      match iteration currPidNum inp sh with
      | (.continues sh1, _) => foregroundCount currPidNum rest sh1
      | _ => 0

/-- The standard input the specification plans for the child: the input file
when a path is set, else the null device for a background command, else the
one of the shell. -/
def plannedStdin (cmd : Cmd) : Stream :=
  if cmd.inputFile ≠ [] then .file cmd.inputFile .rdonly
  else if cmd.background then .file devNull .rdonly
  else .inherited

/-- The standard output the specification plans for the child, by the
symmetric rule. -/
def plannedStdout (cmd : Cmd) : Stream :=
  if cmd.outputFile ≠ [] then .file cmd.outputFile .wronlyCreatTrunc
  else if cmd.background then .file devNull .wronlyCreatTrunc
  else .inherited

/-- What holds of the globals at each place of the loop. -/
def Quiescent : Pc × SigState → Prop
  | (.top, st) => st.fgRunning = false ∧ st.SIGTSTP_sent = false
  | (.waiting, st) => st.fgRunning = true
  | (.waited, st) => st.fgRunning = false
  | (.clearing, st) => st.fgRunning = false
  | (.printing, st) => st.fgRunning = false ∧ st.SIGTSTP_sent = false

/-- Four iterations in which no foreground child is waited for: `status`,
`cd /tmp`, `sleep 5 &` and an empty line, with one SIGTSTP at the prompt of
the second and of the third, every `chdir` succeeding, `fork()` returning 100
and the child found finished by the pass of the fourth. -/
def quietInputs : List Input :=
  [⟨"status\n".toList, Cmd.zeroed, fun _ => (0, 0), 0, ⟨none, fun p => some p, 100, 0, 0⟩⟩,
   ⟨"cd /tmp\n".toList, Cmd.zeroed, fun _ => (0, 0), 1, ⟨none, fun p => some p, 100, 0, 0⟩⟩,
   ⟨"sleep 5 &\n".toList, Cmd.zeroed, fun _ => (0, 0), 1, ⟨none, fun p => some p, 100, 0, 0⟩⟩,
   ⟨"\n".toList, Cmd.zeroed, fun _ => (100, 0), 0, ⟨none, fun p => some p, 100, 0, 0⟩⟩]

/-- A block for the structure whose first word is a pointer to the text `ls`,
as an earlier use of the memory can leave it, every other byte being zero. -/
def staleBlock : Cmd :=
  { args := some "ls".toList :: List.replicate (ARGCOUNT - 1) none, background := false,
    inputFile := [], outputFile := [] }

/-- Answers of an operating system in which every `chdir` fails. -/
def failingChdir : Os :=
  { home := none, chdir := fun _ => none, fork := 100, signals := 0, waitStatus := 0 }

/-- Answers to the child in which every call succeeds. -/
def allSucceed : ChildOs :=
  { openFd := fun _ _ => 3, dup2 := fun _ target => target, execOk := true }

/-! ## Lemmas: variable expansion -/

theorem strstr_nil_dollars : strstr [] dollars = none := by
  simp [strstr, dollars]

theorem strstr_single_dollars (c : Char) : strstr [c] dollars = none := by
  simp [strstr, dollars, List.isPrefixOf]

theorem strstr_cons_cons_dollars (c d : Char) (rest : List Char) :
    strstr (c :: d :: rest) dollars =
      if c = '$' ∧ d = '$' then some 0 else (strstr (d :: rest) dollars).map (· + 1) := by
  by_cases h : c = '$' ∧ d = '$'
  · obtain ⟨rfl, rfl⟩ := h
    simp [strstr, dollars, List.isPrefixOf]
  · have : (dollars.isPrefixOf (c :: d :: rest)) = false := by
      simp only [dollars, List.isPrefixOf, Bool.and_true, Bool.and_eq_false_imp, beq_iff_eq]
      intro h1
      by_contra h2
      simp at h2
      exact h ⟨h1.symm, h2.symm⟩
    rw [strstr, this]
    simp [h]

theorem ite_ne_of_ne {α : Type} (p : Prop) [Decidable p] (a b c : α) (ha : a ≠ c)
    (hb : b ≠ c) : (if p then a else b) ≠ c := by
  split <;> assumption

theorem digitChar_ne_dollar (n : Nat) : Nat.digitChar n ≠ '$' := by
  unfold Nat.digitChar
  repeat refine ite_ne_of_ne _ _ _ _ (by decide) ?_
  decide

theorem toDigitsCore_no_dollar (fuel n : Nat) (acc : List Char) (h : '$' ∉ acc) :
    '$' ∉ Nat.toDigitsCore 10 fuel n acc := by
  induction fuel generalizing n acc with
  | zero => simpa [Nat.toDigitsCore] using h
  | succ f ih =>
    rw [Nat.toDigitsCore]
    have h2 : '$' ∉ Nat.digitChar (n % 10) :: acc := by
      simp only [List.mem_cons, not_or]
      exact ⟨fun e => digitChar_ne_dollar _ e.symm, h⟩
    split
    · exact h2
    · exact ih _ _ h2

theorem sprintf_d_no_dollar (n : Int) : '$' ∉ sprintf_d n := by
  have h : ∀ m, '$' ∉ Nat.toDigits 10 m := fun m => toDigitsCore_no_dollar _ _ _ (by simp)
  unfold sprintf_d
  split
  · simp only [List.mem_cons, not_or]
    exact ⟨by decide, h _⟩
  · exact h _

theorem settled_of_no_dollar : ∀ x : List Char, '$' ∉ x → Settled x
  | [], _ => trivial
  | [c], h => by
    simp only [List.mem_singleton] at h
    exact fun e => h e.symm
  | c :: d :: rest, h => by
    simp only [List.mem_cons, not_or] at h
    exact ⟨fun e => h.1 e.1.symm, settled_of_no_dollar (d :: rest) (by simp [h.2.1, h.2.2])⟩

theorem settled_append : ∀ x y : List Char, Settled x → Settled y → Settled (x ++ y)
  | [], _, _, hy => hy
  | [_], [], hx, _ => hx
  | [_], _ :: _, hx, hy => ⟨fun h => hx h.1, hy⟩
  | _ :: d :: rest, y, hx, hy => ⟨hx.1, settled_append (d :: rest) y hx.2 hy⟩

theorem strstr_settled_append : ∀ x s : List Char, Settled x →
    strstr (x ++ s) dollars = (strstr s dollars).map (· + x.length)
  | [], s, _ => by simp
  | [c], [], _ => by simp [strstr_single_dollars, strstr_nil_dollars]
  | [c], e :: s, hx => by
    have hc : ¬ (c = '$' ∧ e = '$') := fun h => hx h.1
    simp [strstr_cons_cons_dollars, hc]
  | c :: d :: rest, s, hx => by
    have ih := strstr_settled_append (d :: rest) s hx.2
    simp only [List.cons_append] at ih ⊢
    rw [strstr_cons_cons_dollars, if_neg hx.1, ih]
    simp [Option.map_map, Function.comp, Nat.add_assoc]

theorem replaceDollars_settled_append (pid : List Char) : ∀ x s : List Char, Settled x →
    replaceDollars pid (x ++ s) = x ++ replaceDollars pid s
  | [], s, _ => by simp
  | [c], [], _ => by simp [replaceDollars]
  | [c], e :: s, hx => by
    have hc : ¬ (c = '$' ∧ e = '$') := fun h => hx h.1
    simp [replaceDollars, hc]
  | c :: d :: rest, s, hx => by
    have ih := replaceDollars_settled_append pid (d :: rest) s hx.2
    simp only [List.cons_append] at ih ⊢
    rw [replaceDollars, if_neg hx.1, ih]

theorem strstr_dollars_some : ∀ (s : List Char) (k : Nat), strstr s dollars = some k →
    Settled (s.take k) ∧ s = s.take k ++ ('$' :: '$' :: s.drop (k + 2))
  | [], k, h => by simp [strstr_nil_dollars] at h
  | [c], k, h => by simp [strstr_single_dollars] at h
  | c :: d :: rest, k, h => by
    rw [strstr_cons_cons_dollars] at h
    split at h
    · rename_i hcd
      obtain ⟨rfl, rfl⟩ := hcd
      cases h
      simp [Settled]
    · rename_i hcd
      cases hk : strstr (d :: rest) dollars with
      | none => simp [hk] at h
      | some j =>
        simp only [hk, Option.map_some', Option.some.injEq] at h
        subst h
        obtain ⟨h1, h2⟩ := strstr_dollars_some (d :: rest) j hk
        refine ⟨?_, ?_⟩
        · cases j with
          | zero =>
            simp only [List.take_succ_cons, List.take_zero]
            intro hc
            simp only [List.take_zero, List.nil_append, List.cons.injEq] at h2
            exact hcd ⟨hc, h2.1⟩
          | succ j => exact ⟨hcd, h1⟩
        · simp only [List.take_succ_cons, List.drop_succ_cons, List.cons_append, List.cons.injEq,
            true_and]
          simpa using h2

theorem replaceDollars_of_strstr_none (pid : List Char) : ∀ s : List Char,
    strstr s dollars = none → replaceDollars pid s = s
  | [], _ => rfl
  | [_], _ => rfl
  | c :: d :: rest, h => by
    rw [strstr_cons_cons_dollars] at h
    split at h
    · cases h
    · rename_i hcd
      have h2 : strstr (d :: rest) dollars = none := by
        cases hk : strstr (d :: rest) dollars with
        | none => rfl
        | some j => simp [hk] at h
      rw [replaceDollars, if_neg hcd, replaceDollars_of_strstr_none pid (d :: rest) h2]

theorem expandUnchecked_settled (pid : List Char) (hpid : '$' ∉ pid) :
    ∀ (fuel : Nat) (s x : List Char), Settled x → s.count '$' < 2 * fuel →
      expandUnchecked pid fuel (x ++ s) = some (x ++ replaceDollars pid s) := by
  intro fuel
  induction fuel with
  | zero => intro s x _ h; omega
  | succ fuel ih =>
    intro s x hx hc
    rw [expandUnchecked, strstr_settled_append x s hx]
    cases hk : strstr s dollars with
    | none =>
      simp [replaceDollars_of_strstr_none pid s hk]
    | some k =>
      obtain ⟨h1, h2⟩ := strstr_dollars_some s k hk
      simp only [Option.map_some']
      have hcount : (s.drop (k + 2)).count '$' < 2 * fuel := by
        have : s.count '$' = (s.take k).count '$' + (2 + (s.drop (k + 2)).count '$') := by
          conv_lhs => rw [h2]
          simp [List.count_append, List.count_cons]
          omega
        omega
      have hx2 : Settled (x ++ s.take k ++ pid) :=
        settled_append _ _ (settled_append _ _ hx h1) (settled_of_no_dollar pid hpid)
      have e1 : List.take (k + x.length) (x ++ s) ++ (pid ++ List.drop (k + x.length + 2) (x ++ s))
          = (x ++ s.take k ++ pid) ++ s.drop (k + 2) := by
        have t1 : List.take (k + x.length) (x ++ s) = x ++ s.take k := by
          rw [Nat.add_comm, List.take_append]
        have t2 : List.drop (k + x.length + 2) (x ++ s) = s.drop (k + 2) := by
          have : k + x.length + 2 = x.length + (k + 2) := by omega
          rw [this, List.drop_append]
        rw [t1, t2]
        simp
      rw [e1, ih _ _ hx2 hcount]
      congr 1
      conv_rhs => rw [h2, replaceDollars_settled_append pid _ _ h1]
      simp [replaceDollars]

theorem expandUnchecked_eq (pid : List Char) (hpid : '$' ∉ pid) (fuel : Nat) (s : List Char)
    (h : s.count '$' < 2 * fuel) : expandUnchecked pid fuel s = some (replaceDollars pid s) := by
  simpa using expandUnchecked_settled pid hpid fuel s [] trivial h

theorem expandUnchecked_some_strstr (pid : List Char) : ∀ (fuel : Nat) (s out : List Char),
    expandUnchecked pid fuel s = some out → strstr out dollars = none := by
  intro fuel
  induction fuel with
  | zero => intro s out h; simp [expandUnchecked] at h
  | succ fuel ih =>
    intro s out h
    rw [expandUnchecked] at h
    split at h
    · rename_i hn
      cases h
      exact hn
    · exact ih _ _ h

theorem not_infix_of_strstr_none (needle : List Char) : ∀ s : List Char,
    strstr s needle = none → ¬ needle <:+: s
  | [], h => by
    rw [strstr] at h
    split at h
    · cases h
    · rename_i hne
      simpa [List.infix_nil] using hne
  | c :: cs, h => by
    rw [strstr] at h
    split at h
    · cases h
    · rename_i hp
      have h2 : strstr cs needle = none := by
        cases hk : strstr cs needle with
        | none => rfl
        | some j => simp [hk] at h
      rw [List.infix_cons_iff]
      rintro (hpre | hin)
      · exact hp (List.isPrefixOf_iff_prefix.mpr hpre)
      · exact not_infix_of_strstr_none needle cs h2 hin

theorem expandUnchecked_line (currPidNum : Int) (line : List Char) :
    expandUnchecked (sprintf_d currPidNum) ((stripNewline line).length + 1) (stripNewline line)
      = some (replaceDollars (sprintf_d currPidNum) (stripNewline line)) := by
  apply expandUnchecked_eq _ (sprintf_d_no_dollar _)
  have := List.count_le_length '$' (stripNewline line)
  omega

theorem count_dollar_step (pid : List Char) (hpid : '$' ∉ pid) (s : List Char) (k : Nat)
    (hk : strstr s dollars = some k) :
    List.count '$' (s.take k ++ (pid ++ s.drop (k + 2))) + 2 = List.count '$' s := by
  obtain ⟨-, h2⟩ := strstr_dollars_some s k hk
  have hp : List.count '$' pid = 0 := List.count_eq_zero.mpr hpid
  conv_rhs => rw [h2]
  simp only [List.count_append, List.count_cons_self, hp]
  omega

theorem replaceDollars_length_le (pid : List Char) (hd : 2 ≤ pid.length) :
    ∀ s : List Char, s.length ≤ (replaceDollars pid s).length
  | [] => by simp [replaceDollars]
  | [_] => by simp [replaceDollars]
  | c :: d :: rest => by
    rw [replaceDollars]
    split
    · have := replaceDollars_length_le pid hd rest
      simp only [List.length_cons, List.length_append]
      omega
    · have := replaceDollars_length_le pid hd (d :: rest)
      simp only [List.length_cons] at this ⊢
      omega

theorem strstr_dollars_length (s : List Char) (k : Nat) (h : strstr s dollars = some k) :
    k + 2 + (s.drop (k + 2)).length = s.length := by
  obtain ⟨-, h2⟩ := strstr_dollars_some s k h
  have h3 := congrArg List.length h2
  simp only [List.length_append, List.length_cons, List.length_take, List.length_drop] at h3 ⊢
  omega

theorem expandLoop_settled (size : Nat) (pid : List Char) (hpid : '$' ∉ pid) :
    ∀ (fuel : Nat) (s x : List Char), Settled x → s.count '$' < 2 * fuel →
      (x ++ s).length < size →
      expandLoop size pid fuel (x ++ s)
        = some (if (x ++ replaceDollars pid s).length < size
            then .text (x ++ replaceDollars pid s) else .overflow) := by
  intro fuel
  induction fuel with
  | zero => intro s x _ h; omega
  | succ fuel ih =>
    intro s x hx hc hfit
    rw [expandLoop, strstr_settled_append x s hx]
    cases hk : strstr s dollars with
    | none =>
      simp only [Option.map_none']
      rw [replaceDollars_of_strstr_none pid s hk, if_pos hfit]
    | some k =>
      obtain ⟨h1, h2⟩ := strstr_dollars_some s k hk
      have hlen := strstr_dollars_length s k hk
      simp only [Option.map_some']
      have hcount : (s.drop (k + 2)).count '$' < 2 * fuel := by
        have : s.count '$' = (s.take k).count '$' + (2 + (s.drop (k + 2)).count '$') := by
          conv_lhs => rw [h2]
          simp [List.count_append, List.count_cons]
          omega
        omega
      have hx2 : Settled (x ++ s.take k ++ pid) :=
        settled_append _ _ (settled_append _ _ hx h1) (settled_of_no_dollar pid hpid)
      have t2 : List.drop (k + x.length + 2) (x ++ s) = s.drop (k + 2) := by
        have : k + x.length + 2 = x.length + (k + 2) := by omega
        rw [this, List.drop_append]
      have e1 : List.take (k + x.length) (x ++ s) ++ (pid ++ s.drop (k + 2))
          = (x ++ s.take k ++ pid) ++ s.drop (k + 2) := by
        have t1 : List.take (k + x.length) (x ++ s) = x ++ s.take k := by
          rw [Nat.add_comm, List.take_append]
        rw [t1]
        simp
      have efin : x ++ replaceDollars pid s
          = (x ++ s.take k ++ pid) ++ replaceDollars pid (s.drop (k + 2)) := by
        conv_lhs => rw [h2, replaceDollars_settled_append pid _ _ h1]
        simp [replaceDollars]
      have hk' : k ≤ s.length := by omega
      have hnew : ((x ++ s.take k ++ pid) ++ s.drop (k + 2)).length
          = x.length + k + pid.length + (s.drop (k + 2)).length := by
        simp only [List.length_append, List.length_take, Nat.min_eq_left hk']
      rw [t2, e1, efin]
      by_cases hn : x.length + k + pid.length + (s.drop (k + 2)).length < size
      · rw [if_neg (by omega), if_neg (by omega)]
        exact ih _ _ hx2 hcount (by rw [hnew]; exact hn)
      · have hbig : ¬ ((x ++ s.take k ++ pid) ++ replaceDollars pid (s.drop (k + 2))).length
            < size := by
          by_cases hd : 2 ≤ pid.length
          · have := replaceDollars_length_le pid hd (s.drop (k + 2))
            simp only [List.length_append, List.length_take, Nat.min_eq_left hk']
            omega
          · simp only [List.length_append] at hfit
            omega
        rw [if_neg hbig]
        by_cases h1 : size < k + x.length + pid.length + 1
        · rw [if_pos h1]
        · rw [if_neg h1, if_pos (by omega)]

theorem stripNewline_length_le (line : List Char) : (stripNewline line).length ≤ line.length := by
  unfold stripNewline
  exact (List.takeWhile_sublist _).length_le

theorem expandInput_eq (size : Nat) (currPidNum : Int) (line : List Char)
    (hfit : line.length < size) :
    expandInput size currPidNum line
      = some (if (expandedLine currPidNum line).length < size
          then .text (expandedLine currPidNum line) else .overflow) := by
  have hc : List.count '$' (stripNewline line) < 2 * ((stripNewline line).length + 1) := by
    have := List.count_le_length '$' (stripNewline line)
    omega
  have hfit2 : ([] ++ stripNewline line).length < size := by
    have := stripNewline_length_le line
    simp only [List.nil_append]
    omega
  have := expandLoop_settled size _ (sprintf_d_no_dollar currPidNum)
    ((stripNewline line).length + 1) (stripNewline line) [] trivial hc hfit2
  simpa [expandInput, expandedLine] using this

theorem expandIterations_snd (size : Nat) (pid : List Char) : ∀ (fuel : Nat) (input : List Char),
    (expandIterations size pid fuel input).map Prod.snd = expandLoop size pid fuel input := by
  intro fuel
  induction fuel with
  | zero => intro input; rfl
  | succ fuel ih =>
    intro input
    rw [expandIterations, expandLoop]
    cases hs : strstr input dollars with
    | none => rfl
    | some var =>
      simp only
      split
      · rfl
      · split
        · rfl
        · rw [← ih]
          cases expandIterations size pid fuel
            (input.take var ++ (pid ++ input.drop (var + 2))) <;> rfl

theorem expandIterations_count (size : Nat) (pid : List Char) (hpid : '$' ∉ pid) :
    ∀ (fuel : Nat) (input : List Char) (k : Nat) (e : Expansion),
      expandIterations size pid fuel input = some (k, e) → 2 * k ≤ input.count '$' := by
  intro fuel
  induction fuel with
  | zero => intro input k e h; simp [expandIterations] at h
  | succ fuel ih =>
    intro input k e h
    rw [expandIterations] at h
    cases hs : strstr input dollars with
    | none =>
      rw [hs] at h
      simp only [Option.some.injEq, Prod.mk.injEq] at h
      omega
    | some var =>
      rw [hs] at h
      simp only at h
      have hstep := count_dollar_step pid hpid input var hs
      split at h
      · simp only [Option.some.injEq, Prod.mk.injEq] at h
        omega
      · split at h
        · simp only [Option.some.injEq, Prod.mk.injEq] at h
          omega
        · cases hj : expandIterations size pid fuel
              (input.take var ++ (pid ++ input.drop (var + 2))) with
          | none => rw [hj] at h; cases h
          | some r =>
            rw [hj] at h
            simp only [Option.map_some', Option.some.injEq, Prod.mk.injEq] at h
            have := ih _ r.1 r.2 hj
            omega

theorem expandLoop_fuel_of_iterations (size : Nat) (pid : List Char) :
    ∀ (fuel : Nat) (input : List Char) (k : Nat) (e : Expansion),
      expandIterations size pid fuel input = some (k, e) →
      expandLoop size pid (k + 1) input = some e := by
  intro fuel
  induction fuel with
  | zero => intro input k e h; simp [expandIterations] at h
  | succ fuel ih =>
    intro input k e h
    rw [expandIterations] at h
    rw [expandLoop]
    cases hs : strstr input dollars with
    | none =>
      rw [hs] at h
      simp only [Option.some.injEq, Prod.mk.injEq] at h
      rw [h.2]
    | some var =>
      rw [hs] at h
      simp only at h ⊢
      split at h
      · rename_i h1
        simp only [Option.some.injEq, Prod.mk.injEq] at h
        rw [if_pos h1, h.2]
      · rename_i h1
        split at h
        · rename_i h2
          simp only [Option.some.injEq, Prod.mk.injEq] at h
          rw [if_neg h1, if_pos h2, h.2]
        · rename_i h2
          cases hj : expandIterations size pid fuel
              (input.take var ++ (pid ++ input.drop (var + 2))) with
          | none => rw [hj] at h; cases h
          | some r =>
            rw [hj] at h
            simp only [Option.map_some', Option.some.injEq, Prod.mk.injEq] at h
            rw [if_neg h1, if_neg h2, ← h.1, ← h.2]
            exact ih _ r.1 r.2 hj

theorem expandIterations_overflow_at (size : Nat) (pid : List Char) :
    ∀ (fuel : Nat) (input : List Char) (k : Nat),
      expandIterations size pid fuel input = some (k, .overflow) → input.length < size →
      ∃ j, k = j + 1 ∧ input.length + j * pid.length < size + 2 * j
        ∧ size + 2 * (j + 1) ≤ input.length + (j + 1) * pid.length := by
  intro fuel
  induction fuel with
  | zero => intro input k h; simp [expandIterations] at h
  | succ fuel ih =>
    intro input k h hfit
    rw [expandIterations] at h
    cases hs : strstr input dollars with
    | none =>
      rw [hs] at h
      simp at h
    | some var =>
      rw [hs] at h
      simp only at h
      have hlen := strstr_dollars_length input var hs
      split at h
      · simp only [Option.some.injEq, Prod.mk.injEq, and_true] at h
        exact ⟨0, h.symm, by omega, by omega⟩
      · split at h
        · simp only [Option.some.injEq, Prod.mk.injEq, and_true] at h
          exact ⟨0, h.symm, by omega, by omega⟩
        · rename_i h1 h2
          cases hj : expandIterations size pid fuel
              (input.take var ++ (pid ++ input.drop (var + 2))) with
          | none => rw [hj] at h; cases h
          | some r =>
            rw [hj] at h
            simp only [Option.map_some', Option.some.injEq, Prod.mk.injEq] at h
            obtain ⟨r1, r2⟩ := r
            simp only at h
            obtain ⟨hk, he⟩ := h
            subst he
            have hv : var ≤ input.length := by omega
            have hnl : (input.take var ++ (pid ++ input.drop (var + 2))).length
                = var + pid.length + (input.drop (var + 2)).length := by
              simp only [List.length_append, List.length_take, Nat.min_eq_left hv]
              omega
            obtain ⟨j, hj1, hj2, hj3⟩ := ih _ r1 hj (by rw [hnl]; omega)
            rw [hnl] at hj2 hj3
            have e1 : (j + 1) * pid.length = j * pid.length + pid.length := Nat.succ_mul _ _
            have e2 : (j + 1 + 1) * pid.length = j * pid.length + pid.length + pid.length := by
              rw [Nat.succ_mul, Nat.succ_mul]
            exact ⟨j + 1, by omega, by omega, by omega⟩

theorem expandUnchecked_of_expandLoop (size : Nat) (pid : List Char) :
    ∀ (fuel : Nat) (input out : List Char), expandLoop size pid fuel input = some (.text out) →
      expandUnchecked pid fuel input = some out := by
  intro fuel
  induction fuel with
  | zero => intro input out h; simp [expandLoop] at h
  | succ fuel ih =>
    intro input out h
    rw [expandLoop] at h
    rw [expandUnchecked]
    cases hs : strstr input dollars with
    | none =>
      rw [hs] at h
      simp only [Option.some.injEq, Expansion.text.injEq] at h
      rw [h]
    | some var =>
      rw [hs] at h
      simp only at h ⊢
      split at h
      · cases h
      · split at h
        · cases h
        · exact ih _ _ h

theorem processInput_of_expandInput (size : Nat) (currPidNum : Int) (SIGTSTP_count : Nat)
    (line input : List Char) (cmd : Cmd)
    (h : expandInput size currPidNum line = some (.text input)) :
    processInput currPidNum SIGTSTP_count line cmd
      = some (parseLoop SIGTSTP_count (tokenize input) 0 cmd) := by
  unfold processInput
  rw [expandUnchecked_of_expandLoop size _ _ _ _ h]
  rfl

theorem stripNewline_append_newline : ∀ (s t : List Char), '\n' ∉ s →
    stripNewline (s ++ '\n' :: t) = s
  | [], t, _ => by simp [stripNewline]
  | c :: s, t, h => by
    simp only [List.mem_cons, not_or] at h
    have ih := stripNewline_append_newline s t h.2
    unfold stripNewline at ih ⊢
    have hc : c ≠ '\n' := fun e => h.1 e.symm
    simp only [List.cons_append]
    rw [List.takeWhile_cons_of_pos (by simpa using hc), ih]

theorem replaceDollars_pairs (pid : List Char) : ∀ n : Nat,
    (replaceDollars pid (List.replicate (2 * n) '$')).length = n * pid.length
  | 0 => by simp [replaceDollars]
  | n + 1 => by
    have e : List.replicate (2 * (n + 1)) '$' = '$' :: '$' :: List.replicate (2 * n) '$' := by
      rw [show 2 * (n + 1) = 2 * n + 1 + 1 by omega, List.replicate_succ, List.replicate_succ]
    rw [e, replaceDollars, if_pos ⟨rfl, rfl⟩, List.length_append, replaceDollars_pairs pid n,
      Nat.succ_mul]
    omega

theorem stripNewline_overflowLine : stripNewline overflowLine = List.replicate (2 * 700) '$' := by
  unfold overflowLine
  apply stripNewline_append_newline
  intro h
  have := List.eq_of_mem_replicate h
  exact absurd this (by decide)

theorem overflowLine_length : overflowLine.length = 1401 := by
  unfold overflowLine
  rw [List.length_append, List.length_replicate]
  rfl

theorem expandedLine_overflowLine : (expandedLine 12345 overflowLine).length = 3500 := by
  unfold expandedLine
  rw [stripNewline_overflowLine, replaceDollars_pairs]
  decide

/-! ## Lemmas: the parser -/

theorem argTokens_cons_dropped (t : Token) (l : List Token) (h1 : isRedirect t = false)
    (h2 : isDropped t = true) : argTokens (t :: l) = argTokens l := by
  cases l <;> simp [argTokens, h1, h2]

theorem argTokens_cons_plain (t : Token) (l : List Token) (h1 : isRedirect t = false)
    (h2 : isDropped t = false) : argTokens (t :: l) = t :: argTokens l := by
  cases l <;> simp [argTokens, h1, h2]

theorem valueExpected_cons (t : Token) (l : List Token) (h1 : isRedirect t = false) :
    valueExpected (t :: l) = valueExpected l := by
  cases l <;> simp [valueExpected, h1]

theorem ampAt_nil (i : Nat) : ¬ AmpAt i [] := by
  simp [AmpAt]

theorem ampAt_lt (i : Nat) (toks : List Token) (h : AmpAt i toks) : i < ARGCOUNT := by
  have := h.2.2
  omega

theorem ampAt_redirect_single (i : Nat) (t : Token) (h : isRedirect t = true) :
    ¬ AmpAt i [t] := by
  rintro ⟨h1, -, -⟩
  simp only [List.getLast?_singleton, Option.some.injEq] at h1
  subst h1
  simp [isRedirect] at h

theorem ampAt_redirect (i : Nat) (t v : Token) (ts : List Token) (h : isRedirect t = true) :
    AmpAt i (t :: v :: ts) ↔ AmpAt i ts := by
  cases ts with
  | nil =>
    simp [AmpAt, valueExpected, h]
  | cons w ws =>
    simp [AmpAt, valueExpected, argTokens, h, List.getLast?_cons_cons, List.dropLast]

theorem ampAt_amp_single (i : Nat) : AmpAt i [['&']] ↔ i < ARGCOUNT := by
  simp [AmpAt, valueExpected, argTokens]

theorem ampAt_cons_dropped (i : Nat) (t w : Token) (ws : List Token) (h1 : isRedirect t = false)
    (h2 : isDropped t = true) : AmpAt i (t :: w :: ws) ↔ AmpAt i (w :: ws) := by
  simp only [AmpAt, List.getLast?_cons_cons, List.dropLast_cons₂,
    valueExpected_cons t _ h1, argTokens_cons_dropped t _ h1 h2]

theorem ampAt_cons_plain (i : Nat) (t : Token) (rest : List Token) (h1 : isRedirect t = false)
    (h2 : isDropped t = false) : AmpAt i (t :: rest) ↔ AmpAt (i + 1) rest := by
  cases rest with
  | nil =>
    simp only [AmpAt, List.getLast?_singleton, Option.some.injEq, List.dropLast_single,
      List.getLast?_nil]
    constructor
    · rintro ⟨rfl, -, -⟩
      simp [isDropped] at h2
    · rintro ⟨h, -, -⟩
      cases h
  | cons w ws =>
    simp only [AmpAt, List.getLast?_cons_cons, List.dropLast_cons₂,
      valueExpected_cons t _ h1, argTokens_cons_plain t _ h1 h2, List.length_cons]
    constructor <;> rintro ⟨a, b, c⟩ <;> exact ⟨a, b, by omega⟩

theorem isRedirect_lt : isRedirect ['<'] = true := by decide
theorem isRedirect_gt : isRedirect ['>'] = true := by decide

theorem not_isRedirect (t : Token) (h1 : t ≠ ['<']) (h2 : t ≠ ['>']) : isRedirect t = false := by
  simp [isRedirect, h1, h2]

theorem parseLoop_nil (count i : Nat) (cmd : Cmd) : parseLoop count [] i cmd = cmd := rfl

theorem parseLoop_cons (count : Nat) (arg : Token) (rest : List Token) (i : Nat) (cmd : Cmd) :
    parseLoop count (arg :: rest) i cmd =
      if i < ARGCOUNT then
        if arg = ['<'] then
          match rest with
          | [] => cmd
          | file :: rest2 => parseLoop count rest2 i { cmd with inputFile := file }
        else if arg = ['>'] then
          match rest with
          | [] => cmd
          | file :: rest2 => parseLoop count rest2 i { cmd with outputFile := file }
        else if arg = ['&'] then
          match rest with
          | [] => if count % 2 = 0 then { cmd with background := true } else cmd
          | next :: rest2 => parseLoop count (next :: rest2) i cmd
        else if arg = ['|'] ∨ arg = ['!'] then
          parseLoop count rest i cmd
        else
          parseLoop count rest (i + 1) { cmd with args := cmd.args.set i (some arg) }
      else cmd := by
  cases rest <;> rfl

theorem parseLoop_background (count : Nat) : ∀ (n : Nat) (toks : List Token) (i : Nat) (cmd : Cmd),
    toks.length ≤ n →
    (parseLoop count toks i cmd).background
      = if count % 2 = 0 ∧ AmpAt i toks then true else cmd.background := by
  intro n
  induction n with
  | zero =>
    intro toks i cmd h
    have : toks = [] := List.length_eq_zero.mp (by omega)
    subst this
    simp [parseLoop, ampAt_nil]
  | succ n ih =>
    intro toks i cmd h
    match toks, h with
    | [], _ => simp [parseLoop, ampAt_nil]
    | arg :: rest, h =>
      simp only [List.length_cons] at h
      rw [parseLoop_cons]
      by_cases hi : i < ARGCOUNT
      · rw [if_pos hi]
        by_cases hlt : arg = ['<']
        · subst hlt
          rw [if_pos rfl]
          match rest, h with
          | [], _ => simp [ampAt_redirect_single _ _ isRedirect_lt]
          | file :: rest2, h =>
            simp only [List.length_cons] at h
            simp only [ampAt_redirect _ _ _ _ isRedirect_lt]
            rw [ih rest2 i _ (by omega)]
        · rw [if_neg hlt]
          by_cases hgt : arg = ['>']
          · subst hgt
            rw [if_pos rfl]
            match rest, h with
            | [], _ => simp [ampAt_redirect_single _ _ isRedirect_gt]
            | file :: rest2, h =>
              simp only [List.length_cons] at h
              simp only [ampAt_redirect _ _ _ _ isRedirect_gt]
              rw [ih rest2 i _ (by omega)]
          · rw [if_neg hgt]
            have hr : isRedirect arg = false := not_isRedirect arg hlt hgt
            by_cases hamp : arg = ['&']
            · subst hamp
              rw [if_pos rfl]
              match rest, h with
              | [], _ =>
                simp only [ampAt_amp_single, hi, and_true]
                split <;> rfl
              | next :: rest2, h =>
                simp only [ampAt_cons_dropped _ _ _ _ hr (by decide)]
                rw [ih (next :: rest2) i _ (by simpa using h)]
            · rw [if_neg hamp]
              by_cases hbar : arg = ['|'] ∨ arg = ['!']
              · rw [if_pos hbar]
                have hd : isDropped arg = true := by
                  rcases hbar with rfl | rfl <;> decide
                match rest, h with
                | [], _ =>
                  have : ¬ AmpAt i [arg] := by
                    rintro ⟨h1, -, -⟩
                    simp only [List.getLast?_singleton, Option.some.injEq] at h1
                    exact hamp h1
                  simp [parseLoop, this]
                | next :: rest2, h =>
                  simp only [ampAt_cons_dropped _ _ _ _ hr hd]
                  rw [ih (next :: rest2) i _ (by simpa using h)]
              · rw [if_neg hbar]
                have hd : isDropped arg = false := by
                  simp only [not_or] at hbar
                  simp [isDropped, hamp, hbar.1, hbar.2]
                simp only [ampAt_cons_plain _ _ _ hr hd]
                rw [ih rest (i + 1) _ (by omega)]
      · rw [if_neg hi]
        have : ¬ AmpAt i (arg :: rest) := fun ha => hi (ampAt_lt _ _ ha)
        simp [this]

theorem redirValues_cons (op t : Token) (l : List Token) (h : isRedirect t = false) :
    redirValues op (t :: l) = redirValues op l := by
  cases l <;> simp [redirValues, h]

theorem getLast?_cons_getD (v d : Token) (l : List Token) :
    ((v :: l).getLast?).getD d = (l.getLast?).getD v := by
  cases l with
  | nil => simp
  | cons w ws =>
    rw [List.getLast?_cons_cons, List.getLast?_eq_getLast _ (by simp)]
    simp

theorem parseLoop_files (count : Nat) : ∀ (n : Nat) (toks : List Token) (i : Nat) (cmd : Cmd),
    toks.length ≤ n → i + (argTokens toks).length < ARGCOUNT →
    (parseLoop count toks i cmd).inputFile
        = ((redirValues ['<'] toks).getLast?).getD cmd.inputFile
      ∧ (parseLoop count toks i cmd).outputFile
        = ((redirValues ['>'] toks).getLast?).getD cmd.outputFile := by
  intro n
  induction n with
  | zero =>
    intro toks i cmd h _
    have : toks = [] := List.length_eq_zero.mp (by omega)
    subst this
    simp [parseLoop, redirValues]
  | succ n ih =>
    intro toks i cmd h hc
    match toks, h, hc with
    | [], _, _ => simp [parseLoop, redirValues]
    | arg :: rest, h, hc =>
      simp only [List.length_cons] at h
      have hi : i < ARGCOUNT := by omega
      rw [parseLoop_cons, if_pos hi]
      by_cases hlt : arg = ['<']
      · subst hlt
        rw [if_pos rfl]
        match rest, h, hc with
        | [], _, _ => simp [redirValues]
        | file :: rest2, h, hc =>
          simp only [List.length_cons] at h
          simp only [argTokens, isRedirect_lt, if_true] at hc
          obtain ⟨h1, h2⟩ := ih rest2 i { cmd with inputFile := file } (by omega) hc
          simp only [redirValues, isRedirect_lt, if_true, getLast?_cons_getD]
          exact ⟨h1, by rw [h2]; simp [redirValues]⟩
      · rw [if_neg hlt]
        by_cases hgt : arg = ['>']
        · subst hgt
          rw [if_pos rfl]
          match rest, h, hc with
          | [], _, _ => simp [redirValues]
          | file :: rest2, h, hc =>
            simp only [List.length_cons] at h
            simp only [argTokens, isRedirect_gt, if_true] at hc
            obtain ⟨h1, h2⟩ := ih rest2 i { cmd with outputFile := file } (by omega) hc
            simp only [redirValues, isRedirect_gt, if_true, getLast?_cons_getD]
            exact ⟨by rw [h1]; simp [redirValues], h2⟩
        · rw [if_neg hgt]
          have hr : isRedirect arg = false := not_isRedirect arg hlt hgt
          simp only [redirValues_cons _ _ _ hr]
          by_cases hamp : arg = ['&']
          · subst hamp
            rw [if_pos rfl]
            match rest, h, hc with
            | [], _, _ => by_cases hp : count % 2 = 0 <;> simp [hp, redirValues]
            | next :: rest2, h, hc =>
              rw [argTokens_cons_dropped _ _ hr (by decide)] at hc
              exact ih (next :: rest2) i cmd (by simpa using h) hc
          · rw [if_neg hamp]
            by_cases hbar : arg = ['|'] ∨ arg = ['!']
            · rw [if_pos hbar]
              have hd : isDropped arg = true := by
                rcases hbar with rfl | rfl <;> decide
              rw [argTokens_cons_dropped _ _ hr hd] at hc
              exact ih rest i cmd (by omega) hc
            · rw [if_neg hbar]
              have hd : isDropped arg = false := by
                simp only [not_or] at hbar
                simp [isDropped, hamp, hbar.1, hbar.2]
              rw [argTokens_cons_plain _ _ hr hd, List.length_cons] at hc
              exact ih rest (i + 1) _ (by omega) (by omega)

theorem take_succ_set {α : Type} (l : List α) (i : Nat) (a : α) (h : i < l.length) :
    (l.set i a).take (i + 1) = l.take i ++ [a] := by
  rw [List.set_eq_take_append_cons_drop, if_pos h]
  have hl : (List.take i l).length = i := by simp; omega
  rw [List.take_append_eq_append_take, hl]
  simp [List.take_of_length_le, hl]

theorem storedArgs_at_cap (toks : List Token) (args : List (Option Token)) (i : Nat)
    (h : args.length = ARGCOUNT) (hi : ¬ i < ARGCOUNT) : storedArgs i toks args = args := by
  have h1 : ARGCOUNT - i = 0 := by omega
  have h2 : args.length ≤ i := by omega
  simp [storedArgs, h1, List.take_of_length_le h2, List.drop_eq_nil_of_le h2]

theorem parseLoop_args (count : Nat) : ∀ (n : Nat) (toks : List Token) (i : Nat) (cmd : Cmd),
    toks.length ≤ n → cmd.args.length = ARGCOUNT →
    (parseLoop count toks i cmd).args = storedArgs i toks cmd.args := by
  intro n
  induction n with
  | zero =>
    intro toks i cmd h _
    have : toks = [] := List.length_eq_zero.mp (by omega)
    subst this
    simp [parseLoop, storedArgs, argTokens]
  | succ n ih =>
    intro toks i cmd h hl
    match toks, h with
    | [], _ => simp [parseLoop, storedArgs, argTokens]
    | arg :: rest, h =>
      simp only [List.length_cons] at h
      rw [parseLoop_cons]
      by_cases hi : i < ARGCOUNT
      · rw [if_pos hi]
        by_cases hlt : arg = ['<']
        · subst hlt
          rw [if_pos rfl]
          match rest, h with
          | [], _ => simp [storedArgs, argTokens, isRedirect_lt]
          | file :: rest2, h =>
            simp only [List.length_cons] at h
            dsimp only
            rw [ih rest2 i { cmd with inputFile := file } (by omega) hl]
            simp [storedArgs, argTokens, isRedirect_lt]
        · rw [if_neg hlt]
          by_cases hgt : arg = ['>']
          · subst hgt
            rw [if_pos rfl]
            match rest, h with
            | [], _ => simp [storedArgs, argTokens, isRedirect_gt]
            | file :: rest2, h =>
              simp only [List.length_cons] at h
              dsimp only
              rw [ih rest2 i { cmd with outputFile := file } (by omega) hl]
              simp [storedArgs, argTokens, isRedirect_gt]
          · rw [if_neg hgt]
            have hr : isRedirect arg = false := not_isRedirect arg hlt hgt
            by_cases hamp : arg = ['&']
            · subst hamp
              rw [if_pos rfl]
              match rest, h with
              | [], _ =>
                by_cases hp : count % 2 = 0 <;> simp [hp, storedArgs, argTokens, isRedirect, isDropped]
              | next :: rest2, h =>
                rw [ih (next :: rest2) i _ (by simpa using h) hl]
                simp only [storedArgs, argTokens_cons_dropped _ _ hr (by decide : isDropped ['&'] = true)]
            · rw [if_neg hamp]
              by_cases hbar : arg = ['|'] ∨ arg = ['!']
              · rw [if_pos hbar]
                have hd : isDropped arg = true := by
                  rcases hbar with rfl | rfl <;> decide
                rw [ih rest i _ (by omega) hl]
                simp only [storedArgs, argTokens_cons_dropped _ _ hr hd]
              · rw [if_neg hbar]
                have hd : isDropped arg = false := by
                  simp only [not_or] at hbar
                  simp [isDropped, hamp, hbar.1, hbar.2]
                rw [ih rest (i + 1) _ (by omega) (by simpa using hl)]
                simp only [storedArgs, argTokens_cons_plain _ _ hr hd, List.length_cons]
                have e1 : ARGCOUNT - i = (ARGCOUNT - (i + 1)) + 1 := by omega
                have e2 : i + 1 + min (argTokens rest).length (ARGCOUNT - (i + 1))
                    = i + min ((argTokens rest).length + 1) (ARGCOUNT - i) := by omega
                rw [take_succ_set _ _ _ (by omega), List.drop_set_of_lt _ _ (by omega), e2]
                conv_rhs => rw [e1, List.take_succ_cons]
                simp [← e1]
      · rw [if_neg hi]
        exact (storedArgs_at_cap _ _ _ hl hi).symm

/-! ## Lemmas: the job table -/

theorem registerLoop_full (pid : Int) : ∀ (n i : Nat) (tbl : List Int),
    (∀ j, i ≤ j → j < i + n → tbl.getD j 0 ≠ 0) → registerLoop pid n i tbl = tbl := by
  intro n
  induction n with
  | zero => intro i tbl _; rfl
  | succ n ih =>
    intro i tbl h
    rw [registerLoop, if_neg (h i (le_refl _) (by omega))]
    exact ih (i + 1) tbl fun j h1 h2 => h j (by omega) (by omega)

theorem registerLoop_first (pid : Int) : ∀ (n i : Nat) (tbl : List Int) (k : Nat),
    i ≤ k → k < i + n → tbl.getD k 0 = 0 → (∀ j, i ≤ j → j < k → tbl.getD j 0 ≠ 0) →
    registerLoop pid n i tbl = tbl.set k pid := by
  intro n
  induction n with
  | zero => intro i tbl k h1 h2; omega
  | succ n ih =>
    intro i tbl k h1 h2 h0 hlow
    rw [registerLoop]
    by_cases hik : i = k
    · subst hik
      rw [if_pos h0]
    · rw [if_neg (hlow i (le_refl _) (by omega))]
      exact ih (i + 1) tbl k (by omega) (by omega) h0 fun j a b => hlow j (by omega) b

theorem reapLoop_length (w : Nat → Int × Nat) : ∀ (n i : Nat) (tbl : List Int),
    (reapLoop w n i tbl).1.length = tbl.length := by
  intro n
  induction n with
  | zero => intro i tbl; rfl
  | succ n ih =>
    intro i tbl
    rw [reapLoop]
    split
    · simp [ih]
    · exact ih _ _

theorem getD_set_zero (tbl : List Int) (i j : Nat) :
    (tbl.set i 0).getD j 0 = if j = i then 0 else tbl.getD j 0 := by
  by_cases h : j = i
  · subst h
    simp only [if_true, List.getD_eq_getElem?_getD]
    by_cases hl : j < tbl.length
    · simp [List.getElem?_set_self, hl]
    · simp [List.getElem?_eq_none (by simpa using hl : (tbl.set j 0).length ≤ j)]
  · simp only [if_neg h, List.getD_eq_getElem?_getD]
    rw [List.getElem?_set_ne (fun e => h e.symm)]

theorem reapLoop_table (w : Nat → Int × Nat) : ∀ (n i : Nat) (tbl : List Int) (j : Nat),
    (reapLoop w n i tbl).1.getD j 0 =
      if i ≤ j ∧ j < i + n ∧ 0 < tbl.getD j 0 ∧ 0 < (w j).1 then 0 else tbl.getD j 0 := by
  intro n
  induction n with
  | zero =>
    intro i tbl j
    rw [reapLoop, if_neg]
    rintro ⟨a, b, -⟩
    omega
  | succ n ih =>
    intro i tbl j
    rw [reapLoop]
    by_cases hc : 0 < tbl.getD i 0 ∧ 0 < (w i).1
    · rw [if_pos hc]
      simp only [ih, getD_set_zero]
      by_cases hji : j = i
      · subst hji
        rw [if_neg (by rintro ⟨a, -⟩; omega), if_pos rfl, if_pos ⟨le_refl _, by omega, hc⟩]
      · simp only [if_neg hji]
        have : (i + 1 ≤ j ∧ j < i + 1 + n ∧ 0 < tbl.getD j 0 ∧ 0 < (w j).1)
            ↔ (i ≤ j ∧ j < i + (n + 1) ∧ 0 < tbl.getD j 0 ∧ 0 < (w j).1) := by
          constructor <;> rintro ⟨a, b, c⟩ <;> exact ⟨by omega, by omega, c⟩
        simp only [this]
    · rw [if_neg hc, ih]
      by_cases hji : j = i
      · subst hji
        have h1 : ¬ (j + 1 ≤ j ∧ j < j + 1 + n ∧ 0 < tbl.getD j 0 ∧ 0 < (w j).1) := by
          rintro ⟨a, -⟩; omega
        have h2 : ¬ (j ≤ j ∧ j < j + (n + 1) ∧ 0 < tbl.getD j 0 ∧ 0 < (w j).1) := by
          rintro ⟨-, -, c⟩; exact hc c
        rw [if_neg h1, if_neg h2]
      · have : (i + 1 ≤ j ∧ j < i + 1 + n ∧ 0 < tbl.getD j 0 ∧ 0 < (w j).1)
            ↔ (i ≤ j ∧ j < i + (n + 1) ∧ 0 < tbl.getD j 0 ∧ 0 < (w j).1) := by
          constructor <;> rintro ⟨a, b, c⟩ <;> exact ⟨by omega, by omega, c⟩
        simp only [this]

theorem report_set_of_ne (w : Nat → Int × Nat) (tbl : List Int) (i j : Nat) (h : j ≠ i) :
    report w (tbl.set i 0) j = report w tbl j := by
  unfold report
  rw [getD_set_zero, if_neg h]

theorem reapLoop_output (w : Nat → Int × Nat) : ∀ (n i : Nat) (tbl : List Int),
    (reapLoop w n i tbl).2 = (List.range' i n).flatMap (report w tbl) := by
  intro n
  induction n with
  | zero => intro i tbl; simp [reapLoop]
  | succ n ih =>
    intro i tbl
    rw [reapLoop, List.range'_succ, List.flatMap_cons]
    by_cases hc : 0 < tbl.getD i 0 ∧ 0 < (w i).1
    · rw [if_pos hc]
      simp only [ih]
      have e : (List.range' (i + 1) n).flatMap (report w (tbl.set i 0))
          = (List.range' (i + 1) n).flatMap (report w tbl) := by
        apply List.flatMap_congr
        intro j hj
        have := (List.mem_range'_1.mp hj).1
        exact report_set_of_ne w tbl i j (by omega)
      rw [e, report, if_pos hc]
    · rw [if_neg hc, ih, report, if_neg hc]
      rfl

theorem getD_append_zeros (pre : List Int) (m j : Nat) :
    (pre ++ List.replicate m 0).getD j 0 = pre.getD j 0 := by
  by_cases h : j < pre.length
  · rw [List.getD_append _ _ _ _ h]
  · rw [List.getD_append_right _ _ _ _ (by omega)]
    have : pre.getD j 0 = 0 := by
      rw [List.getD_eq_getElem?_getD, List.getElem?_eq_none (by omega)]
      rfl
    rw [this, List.getD_eq_getElem?_getD]
    by_cases h2 : j - pre.length < m
    · simp [List.getElem?_replicate, h2]
    · simp [List.getElem?_replicate, h2]

theorem getD_ne_zero_of_lt (pre : List Int) (hpre : ∀ x ∈ pre, x ≠ 0) (j : Nat)
    (h : j < pre.length) : pre.getD j 0 ≠ 0 := by
  rw [List.getD_eq_getElem _ _ h]
  exact hpre _ (List.getElem_mem h)

theorem registerJob_append (pid : Int) (pre : List Int) (m : Nat) (hpre : ∀ x ∈ pre, x ≠ 0)
    (hlen : pre.length < 256) :
    registerJob pid (pre ++ List.replicate (m + 1) 0) = pre ++ pid :: List.replicate m 0 := by
  unfold registerJob
  rw [registerLoop_first pid 256 0 _ pre.length (by omega) (by omega)]
  · rw [List.set_append_right _ _ (le_refl _)]
    simp [List.replicate_succ]
  · rw [getD_append_zeros]
    rw [List.getD_eq_getElem?_getD, List.getElem?_eq_none (le_refl _)]
    rfl
  · intro j _ hj
    rw [getD_append_zeros]
    exact getD_ne_zero_of_lt pre hpre j hj

theorem registerJob_foldl : ∀ (pids pre : List Int), (∀ x ∈ pre, x ≠ 0) → (∀ p ∈ pids, p ≠ 0) →
    pre.length + pids.length ≤ 256 →
    pids.foldl (fun t p => registerJob p t) (pre ++ List.replicate (256 - pre.length) 0)
      = pre ++ pids ++ List.replicate (256 - pre.length - pids.length) 0
  | [], pre, _, _, _ => by simp
  | p :: ps, pre, hpre, hp, hlen => by
    simp only [List.length_cons] at hlen
    have e : 256 - pre.length = (256 - pre.length - 1) + 1 := by omega
    rw [List.foldl_cons, e, registerJob_append p pre _ hpre (by omega)]
    have e2 : pre ++ p :: List.replicate (256 - pre.length - 1) 0
        = (pre ++ [p]) ++ List.replicate (256 - (pre ++ [p]).length) 0 := by
      simp
      omega
    rw [e2, registerJob_foldl ps (pre ++ [p])]
    · simp
      congr 1
      omega
    · intro x hx
      rcases List.mem_append.mp hx with h | h
      · exact hpre x h
      · simp only [List.mem_singleton] at h
        subst h
        exact hp _ (List.mem_cons_self _ _)
    · intro q hq
      exact hp q (List.mem_cons_of_mem _ hq)
    · simp
      omega

theorem displayStatus_donePid (s : Nat) : (displayStatus s).filterMap Out.donePid = [] := by
  unfold displayStatus
  split
  · rfl
  · split <;> rfl

theorem map_getD_range (pids : List Int) :
    (List.range pids.length).map (fun j => pids.getD j 0) = pids := by
  apply List.ext_getElem
  · simp
  · intro n h1 h2
    simp only [List.getElem_map, List.getElem_range]
    exact List.getD_eq_getElem _ _ h2

theorem reap_all (w : Nat → Int × Nat) (pids : List Int) (hK : pids.length ≤ 256)
    (hpos : ∀ p ∈ pids, 0 < p) (hw : ∀ j, j < pids.length → 0 < (w j).1) :
    (reapCompleted w (pids ++ List.replicate (256 - pids.length) 0)).1 = emptyJobs
    ∧ (reapCompleted w (pids ++ List.replicate (256 - pids.length) 0)).2
        = (List.range pids.length).flatMap
            (fun j => Out.backgroundDone (pids.getD j 0) :: displayStatus (w j).2) := by
  have hget : ∀ j, j < pids.length → 0 < pids.getD j 0 := by
    intro j hj
    rw [List.getD_eq_getElem _ _ hj]
    exact hpos _ (List.getElem_mem hj)
  have hzero : ∀ j, pids.length ≤ j → pids.getD j 0 = 0 := by
    intro j hj
    rw [List.getD_eq_getElem?_getD, List.getElem?_eq_none hj]
    rfl
  constructor
  · unfold reapCompleted emptyJobs
    rw [List.eq_replicate_iff]
    constructor
    · rw [reapLoop_length]
      simp
      omega
    · intro b hb
      obtain ⟨j, hj, rfl⟩ := List.getElem_of_mem hb
      rw [← List.getD_eq_getElem _ 0 hj, reapLoop_table, getD_append_zeros]
      split
      · rfl
      · rename_i hc
        by_cases hjK : j < pids.length
        · exfalso
          apply hc
          rw [reapLoop_length] at hj
          simp at hj
          exact ⟨by omega, by omega, hget j hjK, hw j hjK⟩
        · exact hzero j (by omega)
  · unfold reapCompleted
    rw [reapLoop_output]
    have hsplit : List.range' 0 256
        = List.range' 0 pids.length ++ List.range' (0 + pids.length) (256 - pids.length) := by
      rw [List.range'_append_1]
      congr 1
      omega
    rw [hsplit, List.flatMap_append]
    have h2 : (List.range' (0 + pids.length) (256 - pids.length)).flatMap
        (report w (pids ++ List.replicate (256 - pids.length) 0)) = [] := by
      rw [List.flatMap_eq_nil_iff]
      intro j hj
      have hj1 := (List.mem_range'_1.mp hj).1
      unfold report
      rw [getD_append_zeros, hzero j (by omega), if_neg]
      rintro ⟨a, -⟩
      exact lt_irrefl _ a
    rw [h2, List.append_nil, List.range_eq_range']
    apply List.flatMap_congr
    intro j hj
    have hj2 := (List.mem_range'_1.mp hj).2
    unfold report
    rw [getD_append_zeros, if_pos ⟨hget j (by omega), hw j (by omega)⟩]

theorem donePid_reports (w : Nat → Int × Nat) (pids : List Int) :
    ((List.range pids.length).flatMap
        (fun j => Out.backgroundDone (pids.getD j 0) :: displayStatus (w j).2)).filterMap
      Out.donePid = pids := by
  rw [List.filterMap_flatMap]
  have : ∀ j ∈ List.range pids.length,
      (Out.backgroundDone (pids.getD j 0) :: displayStatus (w j).2).filterMap Out.donePid
        = [pids.getD j 0] := by
    intro j _
    rw [List.filterMap_cons]
    simp only [Out.donePid, displayStatus_donePid]
  rw [List.flatMap_congr this]
  conv_rhs => rw [← map_getD_range pids]
  induction List.range pids.length with
  | nil => rfl
  | cons a l ih => rw [List.flatMap_cons, List.map_cons, ih]; rfl

/-! ## The properties -/

theorem processInput_eq (currPidNum : Int) (SIGTSTP_count : Nat) (line : List Char) (cmd : Cmd) :
    processInput currPidNum SIGTSTP_count line cmd
      = some (parseLoop SIGTSTP_count (lineTokens currPidNum line) 0 cmd) := by
  unfold processInput
  rw [expandUnchecked_line]
  rfl

theorem ampAt_zero_iff (toks : List Token) : AmpAt 0 toks ↔ trailingAmpersand toks = true := by
  simp [AmpAt, trailingAmpersand, and_assoc]

/-- C1 fails at the line of 700 `$$` with the pid 12345.  In a block of `size`
bytes that holds the line, the expansion leaves the line, cut at its newline,
with every `$$` replaced from left to right by the decimal form of the pid when
that text and its NUL fit in the block, and otherwise writes past the end of
the block.  The replaced text contains no `$$`; the replacement keeps the text
before an occurrence and carries on with the text after it, with nothing
inserted, and leaves a text without `$` as it is.  The line of 700 `$$` fits in
the `CMDLENGTH` bytes `getline` is told of, so it is in the block of
`CMDLENGTH + 1` bytes of `main`; with every `$$` replaced it has 3500
characters, and the expansion writes past the end of the block.  The line
`echo pid$$$$` with the pid 1234 becomes `echo pid12341234`. -/
theorem expandInput_replaces_or_overflows :
    (∀ (size : Nat) (currPidNum : Int) (line : List Char), line.length < size →
      expandInput size currPidNum line
        = some (if (expandedLine currPidNum line).length < size
            then .text (expandedLine currPidNum line) else .overflow))
    ∧ (∀ (currPidNum : Int) (line : List Char), ¬ dollars <:+: expandedLine currPidNum line)
    ∧ (∀ (currPidNum : Int) (pre suf : List Char), '$' ∉ pre →
        replaceDollars (sprintf_d currPidNum) (pre ++ '$' :: '$' :: suf)
          = pre ++ sprintf_d currPidNum ++ replaceDollars (sprintf_d currPidNum) suf)
    ∧ (∀ (currPidNum : Int) (s : List Char), '$' ∉ s →
        replaceDollars (sprintf_d currPidNum) s = s)
    ∧ overflowLine.length + 1 ≤ CMDLENGTH
    ∧ (expandedLine 12345 overflowLine).length = 3500
    ∧ expandInput inputBlock 12345 overflowLine = some .overflow
    ∧ expandInput inputBlock 1234 "echo pid$$$$\n".toList
        = some (.text "echo pid12341234".toList) := by
  refine ⟨expandInput_eq, ?_, ?_, ?_, ?_, expandedLine_overflowLine, ?_, by decide⟩
  · intro currPidNum line
    apply not_infix_of_strstr_none
    exact expandUnchecked_some_strstr _ _ _ _ (expandUnchecked_line currPidNum line)
  · intro currPidNum pre suf hpre
    rw [replaceDollars_settled_append _ _ _ (settled_of_no_dollar pre hpre)]
    simp [replaceDollars]
  · intro currPidNum s hs
    simpa [replaceDollars] using replaceDollars_settled_append (sprintf_d currPidNum) s []
      (settled_of_no_dollar s hs)
  · rw [overflowLine_length]
    decide
  · rw [expandInput_eq inputBlock 12345 overflowLine (by rw [overflowLine_length]; decide),
      expandedLine_overflowLine, if_neg (by decide)]

/-! ### A line that reaches the argument cap -/

theorem plainA : isRedirect ['a'] = false ∧ isDropped ['a'] = false := by decide

theorem tokenizeAux_words (s : List Char) : ∀ n : Nat,
    tokenizeAux ((List.replicate n ['a', ' ']).flatten ++ s) []
      = List.replicate n ['a'] ++ tokenizeAux s []
  | 0 => by simp
  | n + 1 => by
    have ih := tokenizeAux_words s n
    simp only [List.replicate_succ, List.flatten_cons, List.cons_append, List.nil_append]
    rw [tokenizeAux, if_neg (by decide), tokenizeAux, if_pos rfl]
    simp [ih]

theorem lineTokens_of_plain (currPidNum : Int) (line : List Char) (h1 : '\n' ∉ line)
    (h2 : '$' ∉ line) : lineTokens currPidNum line = tokenize line := by
  have e1 : stripNewline line = line := by
    unfold stripNewline
    rw [List.takeWhile_eq_self_iff]
    intro x hx
    simp only [ne_eq, decide_eq_true_eq]
    rintro rfl
    exact h1 hx
  unfold lineTokens expandedLine
  rw [e1]
  have := replaceDollars_settled_append (sprintf_d currPidNum) line [] (settled_of_no_dollar line h2)
  simp only [List.append_nil, replaceDollars] at this
  rw [this]

theorem mem_words (c : Char) (n : Nat) (h : c ∈ (List.replicate n ['a', ' ']).flatten) :
    c = 'a' ∨ c = ' ' := by
  simp only [List.mem_flatten, List.mem_replicate] at h
  obtain ⟨l, ⟨-, rfl⟩, hc⟩ := h
  simpa using hc

theorem lineTokens_capLine (currPidNum : Int) (tail : List Char) (h1 : '\n' ∉ tail)
    (h2 : '$' ∉ tail) :
    lineTokens currPidNum (capLine ++ tail) = List.replicate ARGCOUNT ['a'] ++ tokenize tail := by
  rw [lineTokens_of_plain, tokenize, capLine, tokenizeAux_words]
  · rfl
  · intro h
    rcases List.mem_append.mp h with h | h
    · rcases mem_words _ _ h with h | h <;> exact absurd h (by decide)
    · exact h1 h
  · intro h
    rcases List.mem_append.mp h with h | h
    · rcases mem_words _ _ h with h | h <;> exact absurd h (by decide)
    · exact h2 h

theorem argTokens_words_append (l : List Token) : ∀ n : Nat,
    argTokens (List.replicate n ['a'] ++ l) = List.replicate n ['a'] ++ argTokens l
  | 0 => by simp
  | n + 1 => by
    rw [List.replicate_succ, List.cons_append, argTokens_cons_plain _ _ plainA.1 plainA.2,
      argTokens_words_append l n]
    rfl

theorem redirValues_words_append (op : Token) (l : List Token) : ∀ n : Nat,
    redirValues op (List.replicate n ['a'] ++ l) = redirValues op l
  | 0 => by simp
  | n + 1 => by
    rw [List.replicate_succ, List.cons_append, redirValues_cons _ _ _ plainA.1,
      redirValues_words_append op l n]

theorem parseLoop_at_cap (count : Nat) (toks : List Token) (i : Nat) (cmd : Cmd)
    (h : ¬ i < ARGCOUNT) : parseLoop count toks i cmd = cmd := by
  cases toks with
  | nil => rfl
  | cons t ts => rw [parseLoop_cons, if_neg h]

theorem parseLoop_words_inputFile (count : Nat) (l : List Token) : ∀ (n i : Nat) (cmd : Cmd),
    i + n = ARGCOUNT →
    (parseLoop count (List.replicate n ['a'] ++ l) i cmd).inputFile = cmd.inputFile
  | 0, i, cmd, h => by
    rw [parseLoop_at_cap _ _ _ _ (by omega)]
  | n + 1, i, cmd, h => by
    rw [List.replicate_succ, List.cons_append, parseLoop_cons, if_pos (by omega),
      if_neg (by decide), if_neg (by decide), if_neg (by decide), if_neg (by decide)]
    exact parseLoop_words_inputFile count l n (i + 1) _ (by omega)

/-- C5 fails at the line of ARGCOUNT words `a`, parsed into a zero-filled
structure: every one of the ARGCOUNT pointers is set to a token, so the array
holds no NULL after the arguments. -/
theorem processInput_args_no_sentinel :
    lineTokens 1 capLine = List.replicate ARGCOUNT ['a']
    ∧ (processInput 1 0 capLine Cmd.zeroed).map Cmd.args
        = some (List.replicate ARGCOUNT (some ['a']))
    ∧ none ∉ List.replicate ARGCOUNT (some ['a']) := by
  have ht : lineTokens 1 capLine = List.replicate ARGCOUNT ['a'] := by
    have := lineTokens_capLine 1 [] (by decide) (by decide)
    rw [List.append_nil] at this
    rw [this]
    exact List.append_nil _
  refine ⟨ht, ?_, ?_⟩
  · rw [processInput_eq, ht, Option.map_some',
      parseLoop_args 0 _ _ 0 Cmd.zeroed (le_refl _) (by simp [Cmd.zeroed]), storedArgs]
    have ha : argTokens (List.replicate ARGCOUNT ['a']) = List.replicate ARGCOUNT ['a'] := by
      have := argTokens_words_append [] ARGCOUNT
      rw [List.append_nil] at this
      rw [this]
      exact List.append_nil _
    rw [ha]
    have hz : Cmd.zeroed.args = List.replicate ARGCOUNT none := rfl
    rw [hz]
    generalize ARGCOUNT = n
    simp
  · intro h
    have := List.eq_of_mem_replicate h
    cases this

/-- C3 fails.  After a foreground command that exited normally, whatever its
exit code, `status` prints `exit value 1`: the code prints the truth value
`WIFEXITED(exitMethod)`, not `WEXITSTATUS(exitMethod)`.  So exit code 0 is
reported as 1.  For a command killed by a signal the raw status is printed,
which is the signal number plus 128 when a core was dumped: 139 for signal 11. -/
theorem statusBuiltin_prints_truth_value :
    (∀ code : Nat, statusBuiltin true (exitedStatus code) = [Out.exitValue 1])
    ∧ (Out.exitValue 1).text = "exit value 1\n".toList
    ∧ WEXITSTATUS (exitedStatus 0) = 0
    ∧ statusBuiltin true (exitedStatus 0) ≠ [Out.exitValue 0]
    ∧ WTERMSIG (signaledStatus 11 true) = 11
    ∧ statusBuiltin true (signaledStatus 11 true) = [Out.terminatedBySignal 139] := by
  refine ⟨?_, by decide, by decide, by decide, by decide, by decide⟩
  intro code
  have h : WTERMSIG (exitedStatus code) = 0 := by
    unfold WTERMSIG exitedStatus
    omega
  simp [statusBuiltin, displayStatus, WIFEXITED, h]

/-- C6.  Registering a pid in an array of 256 slots writes it into the empty
slot of lowest index, if there is one, and changes no other slot; when no slot
is empty the array is returned as it was.  This holds for every pid. -/
theorem registerJob_first_empty_slot (pid : Int) (bgProcesses : List Int)
    (hlen : bgProcesses.length = 256) :
    (∀ k, k < 256 → bgProcesses.getD k 0 = 0 → (∀ j, j < k → bgProcesses.getD j 0 ≠ 0) →
        registerJob pid bgProcesses = bgProcesses.set k pid
        ∧ (registerJob pid bgProcesses).getD k 0 = pid
        ∧ ∀ j, j ≠ k → (registerJob pid bgProcesses).getD j 0 = bgProcesses.getD j 0)
    ∧ ((∀ j, j < 256 → bgProcesses.getD j 0 ≠ 0) → registerJob pid bgProcesses = bgProcesses)
    ∧ (registerJob pid bgProcesses).length = 256 := by
  refine ⟨?_, ?_, ?_⟩
  · intro k hk h0 hlow
    have e : registerJob pid bgProcesses = bgProcesses.set k pid :=
      registerLoop_first pid 256 0 bgProcesses k (Nat.zero_le _) (by omega) h0
        (fun j _ hj => hlow j hj)
    refine ⟨e, ?_, ?_⟩
    · rw [e, List.getD_eq_getElem?_getD, List.getElem?_set_self (by omega)]
      rfl
    · intro j hj
      rw [e, List.getD_eq_getElem?_getD, List.getD_eq_getElem?_getD,
        List.getElem?_set_ne (fun e => hj e.symm)]
  · intro hfull
    exact registerLoop_full pid 256 0 bgProcesses (fun j _ hj => hfull j (by omega))
  · by_cases hfull : ∀ j, j < 256 → bgProcesses.getD j 0 ≠ 0
    · rw [show registerJob pid bgProcesses = bgProcesses from
        registerLoop_full pid 256 0 bgProcesses (fun j _ hj => hfull j (by omega))]
      exact hlen
    · have hex : ∃ k, k < 256 ∧ bgProcesses.getD k 0 = 0 := by
        by_contra hne
        apply hfull
        intro j hj h0
        exact hne ⟨j, hj, h0⟩
      classical
      let k := Nat.find hex
      have hk := Nat.find_spec hex
      have hmin : ∀ j, j < k → bgProcesses.getD j 0 ≠ 0 := by
        intro j hj h0
        exact Nat.find_min hex hj ⟨by omega, h0⟩
      rw [show registerJob pid bgProcesses = bgProcesses.set k pid from
        registerLoop_first pid 256 0 bgProcesses k (Nat.zero_le _) (by omega) hk.2
          (fun j _ hj => hmin j hj)]
      simpa using hlen

/-- C6 at two arrays of 256 slots: with slot 0 taken and slot 1 empty the pid
42 goes to slot 1; with every slot taken the array is unchanged. -/
theorem registerJob_first_empty_slot_witness :
    (7 :: List.replicate 255 (0 : Int)).length = 256
    ∧ registerJob 42 (7 :: List.replicate 255 0) = (7 :: List.replicate 255 0).set 1 42
    ∧ (List.replicate 256 (9 : Int)).length = 256
    ∧ registerJob 42 (List.replicate 256 9) = List.replicate 256 9 := by
  have h1 : (7 :: List.replicate 255 (0 : Int)).length = 256 := by
    simp only [List.length_cons, List.length_replicate]
  have h2 : (List.replicate 256 (9 : Int)).length = 256 := by
    simp only [List.length_replicate]
  refine ⟨h1, ?_, h2, ?_⟩
  · refine ((registerJob_first_empty_slot 42 _ h1).1 1 (by decide) (by decide) ?_).1
    intro j hj
    have : j = 0 := by omega
    subst this
    decide
  · refine (registerJob_first_empty_slot 42 _ h2).2.1 ?_
    intro j hj
    rw [List.getD_eq_getElem?_getD, List.getElem?_replicate, if_pos hj]
    decide

theorem displayStatus_eq (s : Nat) :
    displayStatus s = if s % 128 = 0 then [Out.exitValue 1]
      else if s % 128 = 127 then [] else [Out.terminatedBySignal s] := by
  unfold displayStatus WIFEXITED WIFSIGNALED WTERMSIG
  have hlt : s % 128 < 128 := Nat.mod_lt _ (by decide)
  by_cases h0 : s % 128 = 0
  · simp [h0]
  · by_cases h1 : s % 128 = 127
    · simp [h0, h1]
    · simp only [h0, if_false, ne_eq, not_true_eq_false, if_neg h1]
      have hv : ¬ (128 : Int) ≤ ((s % 128 : Nat) : Int) + 1 := by omega
      have hp : (0 : Int) < (((s % 128 : Nat) : Int) + 1) / 2 := by omega
      simp only [hv, hp, ↓reduceIte]
      simp

set_option maxRecDepth 100000 in
theorem reapCompleted_example :
    (reapCompleted (fun _ => (7, exitedStatus 5)) (7 :: List.replicate 255 0)).2
        = [Out.backgroundDone 7, Out.exitValue 1]
    ∧ (reapCompleted (fun _ => (7, exitedStatus 0)) (7 :: List.replicate 255 0)).2
        = [Out.backgroundDone 7, Out.exitValue 1]
    ∧ (reapCompleted (fun _ => (7, signaledStatus 11 true)) (7 :: List.replicate 255 0)).2
        = [Out.backgroundDone 7, Out.terminatedBySignal 139] := by
  decide

/-- C7 fails for a background job that ended with `exit(5)`.  One pass over the
array clears a slot exactly when it holds a pid (a positive number) and the
`waitpid` call made for it returns a positive value, and leaves every other
slot as it was; the output is, slot by slot in increasing index, one report per
cleared slot, which names the pid that was in the slot.  Of the status stored
by the call the report carries little: it ends with `exit value 1` for every
job that exited, whatever its exit code, with nothing for a status whose low
seven bits are all set, and with the undecoded status for a job killed by a
signal.  So the reports of a job that called `exit(5)` and of one that called
`exit(0)` are the same, and a job killed by signal 11 with a core dump is
reported as terminated by signal 139. -/
theorem reapCompleted_report_drops_exit_code (waitpid : Nat → Int × Nat)
    (bgProcesses : List Int) :
    (∀ j, j < 256 → (reapCompleted waitpid bgProcesses).1.getD j 0
        = if 0 < bgProcesses.getD j 0 ∧ 0 < (waitpid j).1 then 0 else bgProcesses.getD j 0)
    ∧ (reapCompleted waitpid bgProcesses).1.length = bgProcesses.length
    ∧ (reapCompleted waitpid bgProcesses).2
        = (List.range 256).flatMap (fun j =>
            if 0 < bgProcesses.getD j 0 ∧ 0 < (waitpid j).1 then
              Out.backgroundDone (bgProcesses.getD j 0) ::
                (if (waitpid j).2 % 128 = 0 then [Out.exitValue 1]
                 else if (waitpid j).2 % 128 = 127 then []
                 else [Out.terminatedBySignal (waitpid j).2])
            else [])
    ∧ WEXITSTATUS (exitedStatus 5) = 5
    ∧ (reapCompleted (fun _ => (7, exitedStatus 5)) (7 :: List.replicate 255 0)).2
        = [Out.backgroundDone 7, Out.exitValue 1]
    ∧ (reapCompleted (fun _ => (7, exitedStatus 0)) (7 :: List.replicate 255 0)).2
        = [Out.backgroundDone 7, Out.exitValue 1]
    ∧ [Out.backgroundDone 7, Out.exitValue 1].flatMap Out.text
        = "background pid 7 is done: exit value 1\n".toList
    ∧ WTERMSIG (signaledStatus 11 true) = 11
    ∧ (reapCompleted (fun _ => (7, signaledStatus 11 true)) (7 :: List.replicate 255 0)).2
        = [Out.backgroundDone 7, Out.terminatedBySignal 139] := by
  refine ⟨?_, ?_, ?_, by decide, reapCompleted_example.1, reapCompleted_example.2.1, by decide,
    by decide, reapCompleted_example.2.2⟩
  · intro j hj
    unfold reapCompleted
    rw [reapLoop_table]
    have : (0 ≤ j ∧ j < 0 + 256 ∧ 0 < bgProcesses.getD j 0 ∧ 0 < (waitpid j).1)
        ↔ (0 < bgProcesses.getD j 0 ∧ 0 < (waitpid j).1) := by
      constructor
      · rintro ⟨-, -, c⟩
        exact c
      · intro c
        exact ⟨Nat.zero_le _, by omega, c⟩
    simp only [this]
  · unfold reapCompleted
    rw [reapLoop_length]
  · unfold reapCompleted
    rw [reapLoop_output, List.range_eq_range']
    apply List.flatMap_congr
    intro j _
    rw [report, displayStatus_eq]

/-! ### The mode controller -/

theorem handleSIGTSTP_eq (st : SigState) :
    handleSIGTSTP st =
      if st.fgRunning then
        ({ SIGTSTP_count := st.SIGTSTP_count + 1, fgRunning := st.fgRunning,
           SIGTSTP_sent := true }, [])
      else if (st.SIGTSTP_count + 1) % 2 = 1 then
        ({ st with SIGTSTP_count := st.SIGTSTP_count + 1 }, [Out.entering true])
      else ({ st with SIGTSTP_count := st.SIGTSTP_count + 1 }, [Out.exiting true]) := rfl

theorem handleSIGTSTP_count (st : SigState) :
    (handleSIGTSTP st).1.SIGTSTP_count = st.SIGTSTP_count + 1 := by
  rw [handleSIGTSTP_eq]
  split
  · rfl
  · split <;> rfl

theorem deliver_count : ∀ (n : Nat) (st : SigState),
    (deliver n st).1.SIGTSTP_count = st.SIGTSTP_count + n
  | 0, _ => rfl
  | n + 1, st => by
    rw [deliver]
    simp only
    rw [deliver_count n, handleSIGTSTP_count]
    omega

theorem deliver_running : ∀ (n : Nat) (st : SigState), st.fgRunning = true →
    deliver (n + 1) st
      = ({ SIGTSTP_count := st.SIGTSTP_count + (n + 1), fgRunning := true, SIGTSTP_sent := true },
          [])
  | 0, st, h => by
    simp [deliver, handleSIGTSTP, h]
  | n + 1, st, h => by
    rw [deliver]
    have e : handleSIGTSTP st
        = ({ SIGTSTP_count := st.SIGTSTP_count + 1, fgRunning := true, SIGTSTP_sent := true },
            []) := by
      simp [handleSIGTSTP, h]
    simp only [e]
    rw [deliver_running n _ rfl]
    simp only [List.append_nil, Prod.mk.injEq, SigState.mk.injEq, and_true]
    omega

/-- C8.  Every run of the handler adds one to the counter, so the mode flips,
and leaves `fgRunning` alone.  With no foreground command running it writes
the notice of the new mode, entering when the new counter is odd and exiting
when it is even, and leaves the deferred flag alone; with one running it
writes nothing and sets the flag.  From the initial state the counter after
`n` deliveries is `n`, and the initial mode is Normal. -/
theorem handleSIGTSTP_toggles (st : SigState) :
    (handleSIGTSTP st).1.SIGTSTP_count = st.SIGTSTP_count + 1
    ∧ foregroundOnly (handleSIGTSTP st).1 = !foregroundOnly st
    ∧ (handleSIGTSTP st).1.fgRunning = st.fgRunning
    ∧ (handleSIGTSTP st).2
        = (if st.fgRunning then []
           else [if (st.SIGTSTP_count + 1) % 2 = 1 then Out.entering true else Out.exiting true])
    ∧ (handleSIGTSTP st).1.SIGTSTP_sent = (st.fgRunning || st.SIGTSTP_sent)
    ∧ foregroundOnly SigState.init = false
    ∧ ∀ n : Nat, (deliver n SigState.init).1.SIGTSTP_count = n := by
  refine ⟨handleSIGTSTP_count st, ?_, ?_, ?_, ?_, rfl, ?_⟩
  · unfold foregroundOnly
    rw [handleSIGTSTP_count]
    rcases Nat.mod_two_eq_zero_or_one st.SIGTSTP_count with h | h
    · have h2 : (st.SIGTSTP_count + 1) % 2 = 1 := by omega
      simp [h, h2]
    · have h2 : (st.SIGTSTP_count + 1) % 2 = 0 := by omega
      simp [h, h2]
  · rw [handleSIGTSTP_eq]
    split
    · rfl
    · split <;> rfl
  · rw [handleSIGTSTP_eq]
    cases hf : st.fgRunning
    · simp only [Bool.false_eq_true, if_false]
      split <;> rfl
    · simp
  · rw [handleSIGTSTP_eq]
    cases hf : st.fgRunning
    · simp only [Bool.false_eq_true, if_false, Bool.false_or]
      split <;> rfl
    · simp
  · intro n
    rw [deliver_count]
    simp [SigState.init]

/-- C10.  Starting from the empty array, registering `K` pids (at most 256,
each a positive number) puts them in slots 0 to `K - 1` in order.  One pass in
which the `waitpid` call of each of these slots reports completion then leaves
the array empty and prints exactly one report for each registered pid, in the
order of registration; the pids named by the reports are the registered pids.
The next registration goes to slot 0 again. -/
theorem register_then_reap_round_trip (waitpid : Nat → Int × Nat) (pids : List Int)
    (hK : pids.length ≤ 256) (hpos : ∀ p ∈ pids, 0 < p)
    (hw : ∀ j, j < pids.length → 0 < (waitpid j).1) :
    pids.foldl (fun t p => registerJob p t) emptyJobs
        = pids ++ List.replicate (256 - pids.length) 0
    ∧ (reapCompleted waitpid (pids.foldl (fun t p => registerJob p t) emptyJobs)).1 = emptyJobs
    ∧ (reapCompleted waitpid (pids.foldl (fun t p => registerJob p t) emptyJobs)).2
        = (List.range pids.length).flatMap
            (fun j => Out.backgroundDone (pids.getD j 0) :: displayStatus (waitpid j).2)
    ∧ (reapCompleted waitpid (pids.foldl (fun t p => registerJob p t) emptyJobs)).2.filterMap
          Out.donePid = pids
    ∧ ∀ q : Int, registerJob q
          (reapCompleted waitpid (pids.foldl (fun t p => registerJob p t) emptyJobs)).1
        = q :: List.replicate 255 0 := by
  have hreg : pids.foldl (fun t p => registerJob p t) emptyJobs
      = pids ++ List.replicate (256 - pids.length) 0 := by
    have := registerJob_foldl pids [] (fun _ h => absurd h (List.not_mem_nil _))
      (fun p hp => ne_of_gt (hpos p hp)) (by rw [List.length_nil, Nat.zero_add]; exact hK)
    rw [List.nil_append, List.nil_append, List.length_nil, Nat.sub_zero] at this
    exact this
  obtain ⟨h1, h2⟩ := reap_all waitpid pids hK hpos hw
  rw [hreg]
  refine ⟨rfl, h1, h2, ?_, ?_⟩
  · rw [h2]
    exact donePid_reports waitpid pids
  · intro q
    rw [h1]
    exact registerJob_append q [] 255 (fun _ h => absurd h (List.not_mem_nil _)) (by decide)

/-- C10 for the three pids 11, 22 and 33, every wait reporting a normal exit:
the hypotheses hold and the pass prints three reports, for 11, 22 and 33. -/
theorem register_then_reap_round_trip_witness :
    [11, 22, (33 : Int)].length ≤ 256
    ∧ (∀ p ∈ [11, 22, (33 : Int)], 0 < p)
    ∧ (reapCompleted (fun _ => ((1 : Int), (0 : Nat)))
        ([11, 22, 33].foldl (fun t p => registerJob p t) emptyJobs)).1 = emptyJobs
    ∧ (reapCompleted (fun _ => ((1 : Int), (0 : Nat)))
        ([11, 22, 33].foldl (fun t p => registerJob p t) emptyJobs)).2
        = [Out.backgroundDone 11, Out.exitValue 1, Out.backgroundDone 22, Out.exitValue 1,
           Out.backgroundDone 33, Out.exitValue 1] := by
  have h := register_then_reap_round_trip (fun _ => ((1 : Int), (0 : Nat))) [11, 22, 33]
    (by decide) (by decide) (fun _ _ => Int.one_pos)
  exact ⟨by decide, by decide, h.2.1, h.2.2.1.trans (by decide)⟩

/-! ## The properties: the parser and the expansion, continued -/

theorem parseLoop_counter (c1 c2 : Nat) : ∀ (n : Nat) (toks : List Token) (i : Nat) (cmd : Cmd),
    toks.length ≤ n →
    (parseLoop c1 toks i cmd).args = (parseLoop c2 toks i cmd).args
      ∧ (parseLoop c1 toks i cmd).inputFile = (parseLoop c2 toks i cmd).inputFile
      ∧ (parseLoop c1 toks i cmd).outputFile = (parseLoop c2 toks i cmd).outputFile := by
  intro n
  induction n with
  | zero =>
    intro toks i cmd h
    have : toks = [] := List.length_eq_zero.mp (by omega)
    subst this
    exact ⟨rfl, rfl, rfl⟩
  | succ n ih =>
    intro toks i cmd h
    match toks, h with
    | [], _ => exact ⟨rfl, rfl, rfl⟩
    | arg :: rest, h =>
      simp only [List.length_cons] at h
      rw [parseLoop_cons, parseLoop_cons]
      by_cases hi : i < ARGCOUNT
      · rw [if_pos hi, if_pos hi]
        by_cases hlt : arg = ['<']
        · rw [if_pos hlt, if_pos hlt]
          match rest, h with
          | [], _ => exact ⟨rfl, rfl, rfl⟩
          | file :: rest2, h =>
            simp only [List.length_cons] at h
            exact ih rest2 i _ (by omega)
        · rw [if_neg hlt, if_neg hlt]
          by_cases hgt : arg = ['>']
          · rw [if_pos hgt, if_pos hgt]
            match rest, h with
            | [], _ => exact ⟨rfl, rfl, rfl⟩
            | file :: rest2, h =>
              simp only [List.length_cons] at h
              exact ih rest2 i _ (by omega)
          · rw [if_neg hgt, if_neg hgt]
            by_cases hamp : arg = ['&']
            · rw [if_pos hamp, if_pos hamp]
              match rest, h with
              | [], _ =>
                dsimp only
                split <;> split <;> exact ⟨rfl, rfl, rfl⟩
              | next :: rest2, h => exact ih (next :: rest2) i cmd (by simpa using h)
            · rw [if_neg hamp, if_neg hamp]
              by_cases hbar : arg = ['|'] ∨ arg = ['!']
              · rw [if_pos hbar, if_pos hbar]
                exact ih rest i cmd (by omega)
              · rw [if_neg hbar, if_neg hbar]
                exact ih rest (i + 1) _ (by omega)
      · rw [if_neg hi, if_neg hi]
        exact ⟨rfl, rfl, rfl⟩

theorem parseTrace_nil (count i : Nat) (cmd : Cmd) :
    parseTrace count [] i cmd = (cmd, [], 0) := rfl

theorem parseTrace_cons (count : Nat) (arg : Token) (rest : List Token) (i : Nat) (cmd : Cmd) :
    parseTrace count (arg :: rest) i cmd =
      if i < ARGCOUNT then
        if arg = ['<'] then
          match rest with
          | [] => (cmd, [], 1)
          | file :: rest2 =>
            ((parseTrace count rest2 i { cmd with inputFile := file }).1,
             (parseTrace count rest2 i { cmd with inputFile := file }).2.1,
             (parseTrace count rest2 i { cmd with inputFile := file }).2.2 + 1)
        else if arg = ['>'] then
          match rest with
          | [] => (cmd, [], 1)
          | file :: rest2 =>
            ((parseTrace count rest2 i { cmd with outputFile := file }).1,
             (parseTrace count rest2 i { cmd with outputFile := file }).2.1,
             (parseTrace count rest2 i { cmd with outputFile := file }).2.2 + 1)
        else if arg = ['&'] then
          match rest with
          | [] => (if count % 2 = 0 then { cmd with background := true } else cmd, [], 1)
          | next :: rest2 =>
            ((parseTrace count (next :: rest2) i cmd).1,
             (parseTrace count (next :: rest2) i cmd).2.1,
             (parseTrace count (next :: rest2) i cmd).2.2 + 1)
        else if arg = ['|'] ∨ arg = ['!'] then
          ((parseTrace count rest i cmd).1, (parseTrace count rest i cmd).2.1,
           (parseTrace count rest i cmd).2.2 + 1)
        else
          ((parseTrace count rest (i + 1) { cmd with args := cmd.args.set i (some arg) }).1,
           i :: (parseTrace count rest (i + 1) { cmd with args := cmd.args.set i (some arg) }).2.1,
           (parseTrace count rest (i + 1) { cmd with args := cmd.args.set i (some arg) }).2.2 + 1)
      else (cmd, [], 0) := by
  cases rest <;> rfl

theorem parseTrace_spec (count : Nat) : ∀ (n : Nat) (toks : List Token) (i : Nat) (cmd : Cmd),
    toks.length ≤ n →
    (parseTrace count toks i cmd).1 = parseLoop count toks i cmd
      ∧ (parseTrace count toks i cmd).2.1
          = List.range' i (min (argTokens toks).length (ARGCOUNT - i))
      ∧ (parseTrace count toks i cmd).2.2 ≤ toks.length := by
  intro n
  induction n with
  | zero =>
    intro toks i cmd h
    have : toks = [] := List.length_eq_zero.mp (by omega)
    subst this
    simp [parseTrace_nil, parseLoop_nil, argTokens]
  | succ n ih =>
    intro toks i cmd h
    match toks, h with
    | [], _ => simp [parseTrace_nil, parseLoop_nil, argTokens]
    | arg :: rest, h =>
      simp only [List.length_cons] at h
      rw [parseTrace_cons, parseLoop_cons]
      by_cases hi : i < ARGCOUNT
      · rw [if_pos hi, if_pos hi]
        by_cases hlt : arg = ['<']
        · subst hlt
          rw [if_pos rfl, if_pos rfl]
          match rest, h with
          | [], _ => simp [argTokens, isRedirect_lt]
          | file :: rest2, h =>
            simp only [List.length_cons] at h
            obtain ⟨h1, h2, h3⟩ := ih rest2 i { cmd with inputFile := file } (by omega)
            dsimp only
            refine ⟨h1, ?_, ?_⟩
            · rw [h2]
              simp [argTokens, isRedirect_lt]
            · simp only [List.length_cons]
              omega
        · rw [if_neg hlt, if_neg hlt]
          by_cases hgt : arg = ['>']
          · subst hgt
            rw [if_pos rfl, if_pos rfl]
            match rest, h with
            | [], _ => simp [argTokens, isRedirect_gt]
            | file :: rest2, h =>
              simp only [List.length_cons] at h
              obtain ⟨h1, h2, h3⟩ := ih rest2 i { cmd with outputFile := file } (by omega)
              dsimp only
              refine ⟨h1, ?_, ?_⟩
              · rw [h2]
                simp [argTokens, isRedirect_gt]
              · simp only [List.length_cons]
                omega
          · rw [if_neg hgt, if_neg hgt]
            have hr : isRedirect arg = false := not_isRedirect arg hlt hgt
            by_cases hamp : arg = ['&']
            · subst hamp
              rw [if_pos rfl, if_pos rfl]
              match rest, h with
              | [], _ => simp [argTokens, isRedirect, isDropped]
              | next :: rest2, h =>
                obtain ⟨h1, h2, h3⟩ := ih (next :: rest2) i cmd (by simpa using h)
                dsimp only
                refine ⟨h1, ?_, ?_⟩
                · rw [h2, argTokens_cons_dropped _ _ hr (by decide)]
                · simp only [List.length_cons] at h3 ⊢
                  omega
            · rw [if_neg hamp, if_neg hamp]
              by_cases hbar : arg = ['|'] ∨ arg = ['!']
              · rw [if_pos hbar, if_pos hbar]
                have hd : isDropped arg = true := by
                  rcases hbar with rfl | rfl <;> decide
                obtain ⟨h1, h2, h3⟩ := ih rest i cmd (by omega)
                refine ⟨h1, ?_, ?_⟩
                · dsimp only
                  rw [h2, argTokens_cons_dropped _ _ hr hd]
                · simp only [List.length_cons]
                  omega
              · rw [if_neg hbar, if_neg hbar]
                have hd : isDropped arg = false := by
                  simp only [not_or] at hbar
                  simp [isDropped, hamp, hbar.1, hbar.2]
                obtain ⟨h1, h2, h3⟩ :=
                  ih rest (i + 1) { cmd with args := cmd.args.set i (some arg) } (by omega)
                refine ⟨h1, ?_, ?_⟩
                · dsimp only
                  rw [h2, argTokens_cons_plain _ _ hr hd, List.length_cons]
                  have e : min ((argTokens rest).length + 1) (ARGCOUNT - i)
                      = min (argTokens rest).length (ARGCOUNT - (i + 1)) + 1 := by omega
                  rw [e, List.range'_succ]
                · simp only [List.length_cons]
                  omega
      · rw [if_neg hi, if_neg hi]
        have e : ARGCOUNT - i = 0 := by omega
        simp [e]

theorem argTokens_sublist : ∀ toks : List Token, (argTokens toks).Sublist toks
  | [] => List.Sublist.slnil
  | [t] => by
    rw [argTokens]
    split
    · exact List.nil_sublist _
    · exact List.Sublist.refl _
  | t :: v :: ts => by
    rw [argTokens]
    split
    · exact ((argTokens_sublist ts).cons v).cons t
    · split
      · exact (argTokens_sublist (v :: ts)).cons t
      · exact (argTokens_sublist (v :: ts)).cons₂ t

theorem argTokens_plain : ∀ (toks : List Token) (t : Token), t ∈ argTokens toks →
    isRedirect t = false ∧ isDropped t = false
  | [], t, h => by simp [argTokens] at h
  | [u], t, h => by
    rw [argTokens] at h
    split at h
    · simp at h
    · rename_i hu
      simp only [List.mem_singleton] at h
      subst h
      simpa using hu
  | u :: v :: ts, t, h => by
    rw [argTokens] at h
    split at h
    · exact argTokens_plain ts t h
    · rename_i hr
      split at h
      · exact argTokens_plain (v :: ts) t h
      · rename_i hd
        rcases List.mem_cons.mp h with rfl | h
        · exact ⟨by simpa using hr, by simpa using hd⟩
        · exact argTokens_plain (v :: ts) t h

/-- C16.  For every line, every pid, every structure passed in and any two
values of the counter, both parses end, and they leave the same array of
arguments, the same input path and the same output path: the results can
differ in the background flag only. -/
theorem processInput_counter_only_background (currPidNum : Int) (count1 count2 : Nat)
    (line : List Char) (cmd : Cmd) :
    ∃ out1 out2, processInput currPidNum count1 line cmd = some out1
      ∧ processInput currPidNum count2 line cmd = some out2
      ∧ out1.args = out2.args
      ∧ out1.inputFile = out2.inputFile
      ∧ out1.outputFile = out2.outputFile
      ∧ out2 = { out1 with background := out2.background } := by
  obtain ⟨h1, h2, h3⟩ :=
    parseLoop_counter count1 count2 _ (lineTokens currPidNum line) 0 cmd (le_refl _)
  refine ⟨_, _, processInput_eq _ _ _ _, processInput_eq _ _ _ _, h1, h2, h3, ?_⟩
  rw [h1, h2, h3]

/-- C19.  For every line, the stores `cmd->args[i] = arg` of the parse loop
use the indices 0, 1, 2, ... in this order, as many as the line has argument
tokens but at most ARGCOUNT, so each index is below ARGCOUNT; and the body of
the loop runs at most once per token of the line.  The loop with its counters
leaves the structure `processInput` leaves. -/
theorem parseLoop_stores_in_bounds (currPidNum : Int) (SIGTSTP_count : Nat) (line : List Char)
    (cmd : Cmd) :
    processInput currPidNum SIGTSTP_count line cmd
        = some (parseTrace SIGTSTP_count (lineTokens currPidNum line) 0 cmd).1
    ∧ (parseTrace SIGTSTP_count (lineTokens currPidNum line) 0 cmd).2.1
        = List.range (min (argTokens (lineTokens currPidNum line)).length ARGCOUNT)
    ∧ (∀ i ∈ (parseTrace SIGTSTP_count (lineTokens currPidNum line) 0 cmd).2.1, i < ARGCOUNT)
    ∧ (parseTrace SIGTSTP_count (lineTokens currPidNum line) 0 cmd).2.2
        ≤ (lineTokens currPidNum line).length := by
  obtain ⟨h1, h2, h3⟩ :=
    parseTrace_spec SIGTSTP_count _ (lineTokens currPidNum line) 0 cmd (le_refl _)
  have h2' : (parseTrace SIGTSTP_count (lineTokens currPidNum line) 0 cmd).2.1
      = List.range (min (argTokens (lineTokens currPidNum line)).length ARGCOUNT) := by
    rw [h2, List.range_eq_range']
    rfl
  refine ⟨by rw [h1, processInput_eq], h2', ?_, h3⟩
  intro i hi
  rw [h2'] at hi
  have := List.mem_range.mp hi
  omega

theorem handleSIGTSTP_flags (st : SigState) :
    (handleSIGTSTP st).1.fgRunning = st.fgRunning
      ∧ (handleSIGTSTP st).1.SIGTSTP_sent = (st.fgRunning || st.SIGTSTP_sent) := by
  rw [handleSIGTSTP_eq]
  cases hf : st.fgRunning
  · simp only [Bool.false_eq_true, if_false, Bool.false_or]
    split <;> exact ⟨rfl, rfl⟩
  · simp

theorem quiescent_step (a : Action) (s : Pc × SigState) (h : Quiescent s) :
    Quiescent (step a s) := by
  obtain ⟨pc, st⟩ := s
  cases a with
  | signal =>
    obtain ⟨h1, h2⟩ := handleSIGTSTP_flags st
    cases pc <;> simp only [step, Quiescent] at h ⊢
    · exact ⟨h1.trans h.1, by rw [h2, h.1, h.2]; rfl⟩
    · exact h1.trans h
    · exact h1.trans h
    · exact h1.trans h
    · exact ⟨h1.trans h.1, by rw [h2, h.1, h.2]; rfl⟩
  | advance fg =>
    cases pc <;> simp only [step, Quiescent] at h ⊢
    · cases fg
      · simpa [Quiescent] using h
      · simp [Quiescent]
    · cases hs : st.SIGTSTP_sent
      · simp [Quiescent, h, hs]
      · simp [Quiescent, h]
    · exact ⟨h, trivial⟩
    · exact h

theorem quiescent_steps : ∀ (acts : List Action) (s : Pc × SigState), Quiescent s →
    Quiescent (steps acts s)
  | [], _, h => h
  | a :: rest, s, h => quiescent_steps rest (step a s) (quiescent_step a s h)

/-- C18.  After any sequence of steps of the loop and deliveries of SIGTSTP,
in any order, from the initial state: at the top of an iteration both
`fgRunning` and `SIGTSTP_sent` are false; `SIGTSTP_sent` is true only inside
the foreground wait, after it, or between the test of line 306 and the
assignment of line 310; `fgRunning` is true exactly inside the wait; and the
only action that sets `SIGTSTP_sent` is a delivery inside the wait. -/
theorem flags_quiescent_at_top (acts : List Action) :
    ((steps acts (.top, SigState.init)).1 = .top →
        (steps acts (.top, SigState.init)).2.fgRunning = false
          ∧ (steps acts (.top, SigState.init)).2.SIGTSTP_sent = false)
    ∧ ((steps acts (.top, SigState.init)).2.SIGTSTP_sent = true →
        (steps acts (.top, SigState.init)).1 = .waiting
          ∨ (steps acts (.top, SigState.init)).1 = .waited
          ∨ (steps acts (.top, SigState.init)).1 = .clearing)
    ∧ ((steps acts (.top, SigState.init)).2.fgRunning = true
        ↔ (steps acts (.top, SigState.init)).1 = .waiting)
    ∧ ∀ a : Action, (steps acts (.top, SigState.init)).2.SIGTSTP_sent = false →
        (step a (steps acts (.top, SigState.init))).2.SIGTSTP_sent = true →
        a = .signal ∧ (steps acts (.top, SigState.init)).1 = .waiting := by
  have hq : Quiescent (steps acts (.top, SigState.init)) :=
    quiescent_steps acts _ ⟨rfl, rfl⟩
  generalize steps acts (.top, SigState.init) = s at hq
  obtain ⟨pc, st⟩ := s
  refine ⟨?_, ?_, ?_, ?_⟩
  · intro h
    simp only at h
    subst h
    exact hq
  · intro h
    simp only at h ⊢
    cases pc <;> simp only [Quiescent] at hq
    · rw [hq.2] at h
      cases h
    · exact Or.inl rfl
    · exact Or.inr (Or.inl rfl)
    · exact Or.inr (Or.inr rfl)
    · rw [hq.2] at h
      cases h
  · simp only
    cases pc <;> simp only [Quiescent] at hq <;> simp [hq]
  · intro a h0 h1
    simp only at h0
    cases a with
    | signal =>
      simp only [step] at h1
      rw [(handleSIGTSTP_flags st).2, h0, Bool.or_false] at h1
      refine ⟨rfl, ?_⟩
      cases pc <;> simp only [Quiescent] at hq
      · rw [hq.1] at h1
        cases h1
      · rfl
      · rw [hq] at h1
        cases h1
      · rw [hq] at h1
        cases h1
      · rw [hq.1] at h1
        cases h1
    | advance fg =>
      exfalso
      cases pc <;> simp only [step] at h1
      · cases fg <;> simp [h0] at h1
      · simp [h0] at h1
      · simp [h0] at h1
      · simp at h1
      · simp [h0] at h1

/-- C18 on two runs: a foreground command during which one SIGTSTP arrives,
followed through the check of the flag, ends at the top with both flags
clear and the counter at 1; stopped right after the delivery, the flag is set
and the loop is inside the wait. -/
theorem flags_quiescent_at_top_witness :
    steps [.advance true, .signal, .advance true, .advance true, .advance true, .advance true]
        (.top, SigState.init)
      = (.top, { SIGTSTP_count := 1, fgRunning := false, SIGTSTP_sent := false })
    ∧ steps [.advance true, .signal] (.top, SigState.init)
      = (.waiting, { SIGTSTP_count := 1, fgRunning := true, SIGTSTP_sent := true })
    ∧ (steps [.signal, .advance false, .signal] (.top, SigState.init)).2.SIGTSTP_sent = false := by
  refine ⟨by decide, by decide, ?_⟩
  exact ((flags_quiescent_at_top [.signal, .advance false, .signal]).1 (by decide)).2

/-! ### The dispatch -/

theorem dispatch_null (os : Os) (cmd : Cmd) (sh : Shell) (h : cmd.args.getD 0 none = none) :
    dispatch os cmd sh = (.continues sh, []) := by
  unfold dispatch
  rw [h]

theorem dispatch_comment (os : Os) (cmd : Cmd) (sh : Shell) (t : Token)
    (h : cmd.args.getD 0 none = some t) (ht : t.head? = some '#') :
    dispatch os cmd sh = (.continues sh, []) := by
  unfold dispatch
  rw [h]
  simp only [ht, if_true]

theorem dispatch_status (os : Os) (cmd : Cmd) (sh : Shell)
    (h : cmd.args.getD 0 none = some "status".toList) :
    dispatch os cmd sh
      = (.continues sh, (statusBuiltin sh.fgExited sh.fgExitMethod).map .print) := by
  unfold dispatch
  rw [h]
  simp only
  rw [if_neg (by decide), if_neg (by decide), if_pos trivial]

theorem dispatch_cd_path (os : Os) (cmd : Cmd) (sh : Shell) (path : Token)
    (h0 : cmd.args.getD 0 none = some "cd".toList) (h1 : cmd.args.getD 1 none = some path) :
    dispatch os cmd sh = (.continues { sh with cwd := (os.chdir path).getD sh.cwd }, []) := by
  unfold dispatch
  rw [h0]
  simp only
  rw [if_neg (by decide), if_neg (by decide), if_neg (by decide), if_pos trivial, h1]

theorem parseLoop_first_arg (count : Nat) (toks : List Token) (cmd : Cmd)
    (hlen : cmd.args.length = ARGCOUNT) :
    (parseLoop count toks 0 cmd).args.getD 0 none
      = match (argTokens toks).head? with
        | some t => some t
        | none => cmd.args.getD 0 none := by
  rw [parseLoop_args count _ toks 0 cmd (le_refl _) hlen, storedArgs]
  have h1 : ARGCOUNT - 0 = ARGCOUNT := rfl
  rw [h1]
  cases ha : argTokens toks with
  | nil => simp
  | cons t ts =>
    have h2 : ARGCOUNT = 511 + 1 := rfl
    rw [h2, List.take_succ_cons]
    simp

set_option maxRecDepth 100000 in
theorem staleBlock_example :
    processInput 9 0 "\n".toList staleBlock = some staleBlock
    ∧ iteration 9 ⟨"\n".toList, staleBlock, fun _ => (0, 0), 0, ⟨none, fun _ => none, 100, 0, 0⟩⟩
        (Shell.init 77 [])
      = (.continues { Shell.init 77 [] with fgExited := true, fgExitMethod := 0 }, [.fork])
    ∧ iteration 9 ⟨"\n".toList, Cmd.zeroed, fun _ => (0, 0), 0, ⟨none, fun _ => none, 100, 0, 0⟩⟩
        (Shell.init 77 [])
      = (.continues (Shell.init 77 []), []) := by
  decide

/-- C11 fails at an empty line when the block `malloc` returns for `cmd` does
not begin with a NULL pointer.  For a line with no argument token
`processInput` stores nothing in the array, so the pointer `main` tests is the
one the block already held: with the block whose first pointer is a stale
`ls`, the empty line makes the shell call `fork()` and wait for the child, and
`fgExited` and `fgExitMethod` change; with a zero-filled block the same line
does nothing.  For a line whose first argument token begins with `#`, and for
every `cmd` whose first pointer is NULL or points to a token beginning with
`#`, the dispatch makes no call and leaves the state as it was. -/
theorem blank_line_tests_unset_pointer :
    (∀ (currPidNum : Int) (SIGTSTP_count : Nat) (line : List Char) (cmd : Cmd),
        cmd.args.length = ARGCOUNT → argTokens (lineTokens currPidNum line) = [] →
        (processInput currPidNum SIGTSTP_count line cmd).map (fun c => c.args.getD 0 none)
          = some (cmd.args.getD 0 none))
    ∧ staleBlock.args.length = ARGCOUNT
    ∧ argTokens (lineTokens 9 "\n".toList) = []
    ∧ processInput 9 0 "\n".toList staleBlock = some staleBlock
    ∧ iteration 9 ⟨"\n".toList, staleBlock, fun _ => (0, 0), 0, ⟨none, fun _ => none, 100, 0, 0⟩⟩
        (Shell.init 77 [])
      = (.continues { Shell.init 77 [] with fgExited := true, fgExitMethod := 0 }, [.fork])
    ∧ iteration 9 ⟨"\n".toList, Cmd.zeroed, fun _ => (0, 0), 0, ⟨none, fun _ => none, 100, 0, 0⟩⟩
        (Shell.init 77 [])
      = (.continues (Shell.init 77 []), [])
    ∧ (∀ (currPidNum : Int) (SIGTSTP_count : Nat) (line : List Char) (cmd : Cmd) (os : Os)
        (sh : Shell), cmd.args.length = ARGCOUNT →
        (∃ t, (argTokens (lineTokens currPidNum line)).head? = some t ∧ t.head? = some '#') →
        ∃ parsed, processInput currPidNum SIGTSTP_count line cmd = some parsed
          ∧ dispatch os parsed sh = (.continues sh, []))
    ∧ (∀ (os : Os) (c : Cmd) (sh : Shell), (c.args.getD 0 none = none
          ∨ ∃ t, c.args.getD 0 none = some t ∧ t.head? = some '#') →
        dispatch os c sh = (.continues sh, [])) := by
  have hgen : ∀ (os : Os) (c : Cmd) (sh : Shell), (c.args.getD 0 none = none
      ∨ ∃ t, c.args.getD 0 none = some t ∧ t.head? = some '#') →
      dispatch os c sh = (.continues sh, []) := by
    rintro os c sh (h | ⟨t, h, ht⟩)
    · exact dispatch_null os c sh h
    · exact dispatch_comment os c sh t h ht
  refine ⟨?_, ?_, by decide, staleBlock_example.1, staleBlock_example.2.1,
    staleBlock_example.2.2, ?_, hgen⟩
  · intro currPidNum SIGTSTP_count line cmd hlen ha
    rw [processInput_eq, Option.map_some', parseLoop_first_arg _ _ _ hlen, ha]
    rfl
  · show (List.replicate (ARGCOUNT - 1) none).length + 1 = ARGCOUNT
    rw [List.length_replicate]
    rfl
  · rintro currPidNum SIGTSTP_count line cmd os sh hlen ⟨t, ha, ht⟩
    refine ⟨_, processInput_eq _ _ _ _, hgen _ _ _ (Or.inr ⟨t, ?_, ht⟩)⟩
    rw [parseLoop_first_arg _ _ _ hlen, ha]

theorem dispatch_fg_status (os : Os) (cmd : Cmd) (sh sh1 : Shell) (ev : List Event)
    (h : dispatch os cmd sh = (.continues sh1, ev)) (hfg : runsForeground os cmd = false) :
    sh1.fgExited = sh.fgExited ∧ sh1.fgExitMethod = sh.fgExitMethod := by
  unfold dispatch at h
  unfold runsForeground isExternal at hfg
  cases h0 : cmd.args.getD 0 none with
  | none =>
    rw [h0] at h
    simp only [Prod.mk.injEq, Outcome.continues.injEq] at h
    rw [← h.1]
    exact ⟨rfl, rfl⟩
  | some arg0 =>
    rw [h0] at h hfg
    simp only at h hfg
    split at h
    · simp only [Prod.mk.injEq, Outcome.continues.injEq] at h
      rw [← h.1]
      exact ⟨rfl, rfl⟩
    · rename_i hc
      split at h
      · simp at h
      · rename_i he
        split at h
        · simp only [Prod.mk.injEq, Outcome.continues.injEq] at h
          rw [← h.1]
          exact ⟨rfl, rfl⟩
        · rename_i hst
          split at h
          · split at h <;>
              (simp only [Prod.mk.injEq, Outcome.continues.injEq] at h
               rw [← h.1]
               exact ⟨rfl, rfl⟩)
          · rename_i hcd
            split at h
            · simp at h
            · rename_i hf0
              split at h
              · simp at h
              · rename_i hf1
                split at h
                · rename_i hbg
                  simp [hc, hf0, hf1, hbg] at hfg
                  exact absurd (hfg he hst) hcd
                · simp only [Prod.mk.injEq, Outcome.continues.injEq] at h
                  rw [← h.1]
                  exact ⟨rfl, rfl⟩

theorem iteration_fg_status (currPidNum : Int) (inp : Input) (sh sh1 : Shell) (ev : List Event)
    (h : iteration currPidNum inp sh = (.continues sh1, ev))
    (hfg : foregroundRan currPidNum inp sh = false) :
    sh1.fgExited = sh.fgExited ∧ sh1.fgExitMethod = sh.fgExitMethod := by
  unfold iteration at h
  unfold foregroundRan at hfg
  simp only at h
  cases hp : processInput currPidNum (deliver inp.promptSignals sh.sig).1.SIGTSTP_count
      inp.line inp.cmd with
  | none =>
    rw [hp] at h
    simp at h
  | some cmd =>
    rw [hp] at h hfg
    simp only [Prod.mk.injEq] at h hfg
    exact dispatch_fg_status inp.os cmd
      { sh with bgProcesses := (reapCompleted inp.waitpid sh.bgProcesses).1,
                sig := (deliver inp.promptSignals sh.sig).1 } sh1 _ (Prod.ext h.1 rfl) hfg

theorem run_fg_status (currPidNum : Int) : ∀ (inputs : List Input) (sh sh1 : Shell)
    (ev : List Event), run currPidNum inputs sh = (.continues sh1, ev) →
    foregroundCount currPidNum inputs sh = 0 →
    sh1.fgExited = sh.fgExited ∧ sh1.fgExitMethod = sh.fgExitMethod
  | [], sh, sh1, ev, h, _ => by
    simp only [run, Prod.mk.injEq, Outcome.continues.injEq] at h
    rw [← h.1]
    exact ⟨rfl, rfl⟩
  | inp :: rest, sh, sh1, ev, h, hc => by
    rw [run] at h
    rw [foregroundCount] at hc
    cases hi : iteration currPidNum inp sh with
    | mk o e =>
      rw [hi] at h hc
      cases o with
      | continues sh2 =>
        simp only at h hc
        have hran : foregroundRan currPidNum inp sh = false := by
          cases hr : foregroundRan currPidNum inp sh
          · rfl
          · rw [hr] at hc
            simp at hc
        have hrest : foregroundCount currPidNum rest sh2 = 0 := by omega
        obtain ⟨a1, a2⟩ := iteration_fg_status currPidNum inp sh sh2 e hi hran
        obtain ⟨b1, b2⟩ := run_fg_status currPidNum rest sh2 sh1
          (run currPidNum rest sh2).2 (by
            simp only [Prod.mk.injEq] at h
            exact Prod.ext h.1 rfl) hrest
        exact ⟨b1.trans a1, b2.trans a2⟩
      | ends s => simp at h
      | child => simp at h
      | hangs => simp at h

/-- C14 fails at the line `cd /nonexistent` when `chdir` fails: the dispatch
goes on with the state as it was, but it makes no call of `printf`, `write` or
`perror`; the result of `chdir` is not looked at. -/
theorem cd_failure_not_reported (sh : Shell) :
    ∃ parsed, processInput 9 0 "cd /nonexistent\n".toList Cmd.zeroed = some parsed
      ∧ parsed.args.getD 1 none = some "/nonexistent".toList
      ∧ failingChdir.chdir "/nonexistent".toList = none
      ∧ dispatch failingChdir parsed sh = (.continues sh, []) := by
  have h0 : (parseLoop 0 (lineTokens 9 "cd /nonexistent\n".toList) 0 Cmd.zeroed).args.getD 0 none
      = some "cd".toList := by decide
  have h1 : (parseLoop 0 (lineTokens 9 "cd /nonexistent\n".toList) 0 Cmd.zeroed).args.getD 1 none
      = some "/nonexistent".toList := by decide
  refine ⟨_, processInput_eq _ _ _ _, h1, rfl, ?_⟩
  rw [dispatch_cd_path failingChdir _ sh _ h0 h1]
  rfl

/-! ### The child -/

/-- C12.  Whenever the child runs the program, its standard input is the input
file opened read-only when `inputFile` is not empty, else the null device
opened read-only when the background flag is set, else the one of the shell;
its standard output is the output file opened write/create/truncate when
`outputFile` is not empty, else the null device opened the same way when the
flag is set, else the one of the shell.  It runs the program when every
`open`, every `dup2` onto 0 or 1 and `execvp` succeed, and when it does not it
exits with a non-zero status.  A background command with neither path has both
streams on the null device, a foreground one has both inherited. -/
theorem child_redirection_plan (os : ChildOs) (cmd : Cmd) :
    (∀ (stdin stdout : Stream) (d : Bool), child os cmd = .execs stdin stdout d →
        stdin = plannedStdin cmd ∧ stdout = plannedStdout cmd)
    ∧ ((∀ path flags, os.openFd path flags ≠ -1) →
        (∀ fd, os.dup2 fd 0 ≠ -1 ∧ os.dup2 fd 1 ≠ -1) → os.execOk = true →
        child os cmd = .execs (plannedStdin cmd) (plannedStdout cmd) (!cmd.background))
    ∧ (∀ (status : Nat) (message : List Char), child os cmd = .exits status message →
        status ≠ 0)
    ∧ (cmd.inputFile = [] → cmd.outputFile = [] → cmd.background = true →
        plannedStdin cmd = .file devNull .rdonly
          ∧ plannedStdout cmd = .file devNull .wronlyCreatTrunc)
    ∧ (cmd.inputFile = [] → cmd.outputFile = [] → cmd.background = false →
        plannedStdin cmd = .inherited ∧ plannedStdout cmd = .inherited)
    ∧ (cmd.inputFile ≠ [] → plannedStdin cmd = .file cmd.inputFile .rdonly)
    ∧ (cmd.outputFile ≠ [] → plannedStdout cmd = .file cmd.outputFile .wronlyCreatTrunc) := by
  have hin : ∀ s, childStdin os cmd = .ok s → s = plannedStdin cmd := by
    intro s h
    unfold childStdin at h
    unfold plannedStdin
    split at h
    · rename_i hp
      rw [if_pos hp]
      split at h
      · cases h
      · split at h
        · cases h
        · cases h; rfl
    · rename_i hp
      rw [if_neg hp]
      split at h
      · rename_i hb
        rw [if_pos hb]
        split at h
        · cases h
        · split at h
          · cases h
          · cases h; rfl
      · rename_i hb
        rw [if_neg hb]
        cases h; rfl
  have hout : ∀ s, childStdout os cmd = .ok s → s = plannedStdout cmd := by
    intro s h
    unfold childStdout at h
    unfold plannedStdout
    split at h
    · rename_i hp
      rw [if_pos hp]
      split at h
      · cases h
      · split at h
        · cases h
        · cases h; rfl
    · rename_i hp
      rw [if_neg hp]
      split at h
      · rename_i hb
        rw [if_pos hb]
        split at h
        · cases h
        · split at h
          · cases h
          · cases h; rfl
      · rename_i hb
        rw [if_neg hb]
        cases h; rfl
  have hinErr : ∀ e, childStdin os cmd = .error e → e.1 ≠ 0 := by
    intro e h
    unfold childStdin at h
    repeat' split at h
    all_goals (cases h <;> decide)
  have houtErr : ∀ e, childStdout os cmd = .error e → e.1 ≠ 0 := by
    intro e h
    unfold childStdout at h
    repeat' split at h
    all_goals (cases h <;> decide)
  refine ⟨?_, ?_, ?_, ?_, ?_, ?_, ?_⟩
  · intro stdin stdout d h
    unfold child at h
    cases h1 : childStdin os cmd with
    | error e => rw [h1] at h; cases h
    | ok a =>
      rw [h1] at h
      cases h2 : childStdout os cmd with
      | error e => rw [h2] at h; cases h
      | ok b =>
        rw [h2] at h
        simp only at h
        split at h
        · cases h
          exact ⟨hin _ h1, hout _ h2⟩
        · cases h
  · intro hopen hdup hexec
    have h1 : childStdin os cmd = .ok (plannedStdin cmd) := by
      unfold childStdin plannedStdin
      simp only [hopen, fun fd => (hdup fd).1, if_false]
      split_ifs <;> rfl
    have h2 : childStdout os cmd = .ok (plannedStdout cmd) := by
      unfold childStdout plannedStdout
      simp only [hopen, fun fd => (hdup fd).2, if_false]
      split_ifs <;> rfl
    unfold child
    rw [h1, h2]
    simp [hexec]
  · intro status message h
    unfold child at h
    cases h1 : childStdin os cmd with
    | error e =>
      rw [h1] at h
      cases h
      exact hinErr e h1
    | ok a =>
      rw [h1] at h
      cases h2 : childStdout os cmd with
      | error e =>
        rw [h2] at h
        cases h
        exact houtErr e h2
      | ok b =>
        rw [h2] at h
        simp only at h
        split at h
        · cases h
        · cases h
          decide
  · intro hi ho hb
    simp [plannedStdin, plannedStdout, hi, ho, hb]
  · intro hi ho hb
    simp [plannedStdin, plannedStdout, hi, ho, hb]
  · intro hi
    simp [plannedStdin, hi]
  · intro ho
    simp [plannedStdout, ho]

/-- C12 on four commands when every call succeeds: background with no path,
foreground with no path, an input path, and both paths in the background;
and on a command with an input path when `open` fails. -/
theorem child_redirection_plan_witness :
    child allSucceed { Cmd.zeroed with background := true }
        = .execs (.file devNull .rdonly) (.file devNull .wronlyCreatTrunc) false
    ∧ child allSucceed Cmd.zeroed = .execs .inherited .inherited true
    ∧ child allSucceed { Cmd.zeroed with inputFile := "in".toList }
        = .execs (.file "in".toList .rdonly) .inherited true
    ∧ child allSucceed
          { Cmd.zeroed with inputFile := "in".toList, outputFile := "out".toList,
                            background := true }
        = .execs (.file "in".toList .rdonly) (.file "out".toList .wronlyCreatTrunc) false
    ∧ child { allSucceed with openFd := fun _ _ => -1 }
          { Cmd.zeroed with inputFile := "in".toList }
        = .exits 1 "source open()".toList := by
  refine ⟨?_, by decide, by decide, by decide, by decide⟩
  exact (child_redirection_plan allSucceed { Cmd.zeroed with background := true }).2.1
    (fun _ _ => by
      show (3 : Int) ≠ -1
      decide)
    (fun _ => ⟨by
      show (0 : Int) ≠ -1
      decide, by
      show (1 : Int) ≠ -1
      decide⟩) rfl

end SmallSh
